import Mathlib

/-!
Verification development for the merge-based CPU SpMM benchmark
(`cpu_spmm_v2.cpp`, `axpy.cpp`).

Dense buffers (`vector_x_row_major`, `vector_y_out`, ...) are modelled as flat
functions `ℕ → ℚ` (exact arithmetic in place of IEEE floating point), matrices
as a record of `row_offsets` / `column_indices` / `values` access functions.
Loops that only advance a cursor and accumulate are transcribed as fuel-indexed
structural recursions, where the fuel is the (exact) iteration count of the
corresponding `for`/`while` loop.
-/

/-- Compressed-sparse-row matrix (`CsrMatrix` of `sparse_matrix.h`): the three
arrays are modelled as total access functions; only the indices
`0 .. num_rows` (for `row_offsets`) and `0 .. num_nonzeros - 1` (for
`column_indices` / `values`) are ever read by the kernels. -/
structure CsrMatrix where
  num_rows : ℕ
  num_cols : ℕ
  num_nonzeros : ℕ
  row_offsets : ℕ → ℕ
  column_indices : ℕ → ℕ
  values : ℕ → ℚ

/-- CSR well-formedness invariants from the spec: `row_offsets 0 = 0`,
`row_offsets num_rows = num_nonzeros`, `row_offsets` non-decreasing, and all
column indices in range. -/
def CsrWf (m : CsrMatrix) : Prop :=
  m.row_offsets 0 = 0 ∧
  m.row_offsets m.num_rows = m.num_nonzeros ∧
  (∀ i, i < m.num_rows → m.row_offsets i ≤ m.row_offsets (i + 1)) ∧
  (∀ k, k < m.num_nonzeros → m.column_indices k < m.num_cols)

instance (m : CsrMatrix) : Decidable (CsrWf m) := by
  unfold CsrWf; infer_instance

/-- Row-end offsets: the kernels are passed `a.row_offsets + 1` as the merge
list A (`row_end_offsets`), so `rowEnds m x = row_offsets (x+1)`. -/
def rowEnds (m : CsrMatrix) : ℕ → ℕ := fun x => m.row_offsets (x + 1)

/-- Overwrite of `num_vectors` consecutive slots: models the loop
`for (i = 0; i < nv; i++) Y[base + i] = vals[i]`. -/
def writeSeg (Y : ℕ → ℚ) (base nv : ℕ) (vals : ℕ → ℚ) : ℕ → ℚ :=
  fun j => if base ≤ j ∧ j < base + nv then vals (j - base) else Y j

/-- Accumulating write of `num_vectors` consecutive slots: models the loop
`for (i = 0; i < nv; i++) Y[base + i] += vals[i]`. -/
def addSeg (Y : ℕ → ℚ) (base nv : ℕ) (vals : ℕ → ℚ) : ℕ → ℚ :=
  fun j => if base ≤ j ∧ j < base + nv then Y j + vals (j - base) else Y j

/-- Binary-search loop of `MergePathSearch` (cpu_spmm_v2.cpp lines 237-244):
`while (x_min < x_max) { x_pivot = (x_min+x_max) >> 1;
  if (a[x_pivot] <= b[diagonal - x_pivot - 1]) x_min = x_pivot+1;
  else x_max = x_pivot; }`
with `b` the counting iterator (`b[k] = k`).  The fuel argument bounds the
iteration count; `x_max - x_min` strictly decreases each iteration, so fuel
`x_max - x_min` reproduces the loop exactly. -/
def mpsLoopF (a : ℕ → ℕ) (d : ℕ) : ℕ → ℕ → ℕ → ℕ
  | 0, x_min, _ => x_min
  | fuel + 1, x_min, x_max =>
    if x_min < x_max then
      let x_pivot := (x_min + x_max) / 2
      if a x_pivot ≤ d - x_pivot - 1 then mpsLoopF a d fuel (x_pivot + 1) x_max
      else mpsLoopF a d fuel x_min x_pivot
    else x_min

/-- MergePathSearch (cpu_spmm_v2.cpp lines 226-248), specialised as in the
kernels to `b` = counting iterator: computes
`x_min = max(diagonal - b_len, 0)`, `x_max = min(diagonal, a_len)`, runs the
binary-search loop, and returns `(min(x_min, a_len), diagonal - x_min)`. -/
def MergePathSearch (diagonal : ℕ) (a : ℕ → ℕ) (a_len b_len : ℕ) : ℕ × ℕ :=
  let x_min := diagonal - b_len
  let x_max := min diagonal a_len
  let x := mpsLoopF a diagonal (x_max - x_min) x_min x_max
  (min x a_len, diagonal - x)

/-- Binary-search loop of `RowPathSearch` (cpu_spmm_v2.cpp lines 677-684).
The comparison `a[x_pivot] <= b[path_coordinate.y - 1]` is carried out on
signed integers: for `y = 0` the right side is `b[-1] = -1`, so the comparison
is modelled over `ℤ` with `yb = (y : ℤ) - 1`. -/
def rpsLoopF (a : ℕ → ℕ) (yb : ℤ) : ℕ → ℕ → ℕ → ℕ
  | 0, x_min, _ => x_min
  | fuel + 1, x_min, x_max =>
    if x_min < x_max then
      let x_pivot := (x_min + x_max) / 2
      if (a x_pivot : ℤ) ≤ yb then rpsLoopF a yb fuel (x_pivot + 1) x_max
      else rpsLoopF a yb fuel x_min x_pivot
    else x_min

/-- RowPathSearch (cpu_spmm_v2.cpp lines 668-687), specialised to the counting
iterator for `b`: searches `x ∈ [0, a_len]` for the row containing nonzero
position `y - 1` and returns `min(x_min, a_len)`. -/
def RowPathSearch (y : ℕ) (a : ℕ → ℕ) (a_len : ℕ) : ℕ :=
  let x := rpsLoopF a ((y : ℤ) - 1) a_len 0 a_len
  min x a_len

/-- Per-nonzero product feeding the running totals of all three kernels:
`values[k] * vector_x_row_major[column_indices[k] * num_vectors + i]`
(column `i` of the dense multi-vector). -/
def spmmG (m : CsrMatrix) (xrm : ℕ → ℚ) (nv : ℕ) : ℕ → ℕ → ℚ :=
  fun k i => m.values k * xrm (m.column_indices k * nv + i)

/-- The "consume whole rows" loop shared by `OmpMergeCsrmm` (lines 556-574) and
`OmpNonzeroSplitCsrmm` (lines 737-755):
`for (; x < x_end; ++x) { for (; y < rend[x]; ++y) running += g y;
  Y[x*nv .. x*nv+nv) = running; running = 0; }`.
Returns the updated output buffer together with the final value of the
`y` cursor.  `fuel` is the number of outer iterations, `x_end - x`. -/
def consumeRows (rend : ℕ → ℕ) (g : ℕ → ℕ → ℚ) (nv : ℕ) :
    ℕ → ℕ → ℕ → (ℕ → ℚ) → (ℕ → ℚ) × ℕ
  | 0, _, y, Y => (Y, y)
  | fuel + 1, x, y, Y =>
    consumeRows rend g nv fuel (x + 1) (max y (rend x))
      (writeSeg Y (x * nv) nv (fun i => ∑ k ∈ Finset.Ico y (rend x), g k i))

/-- Total merge-path length `num_rows + num_nonzeros` (`num_merge_items`). -/
def mergeTotal (m : CsrMatrix) : ℕ := m.num_rows + m.num_nonzeros

/-- Merge items per thread: `(num_merge_items + num_threads - 1) / num_threads`. -/
def mergeIpt (m : CsrMatrix) (nt : ℕ) : ℕ := (mergeTotal m + nt - 1) / nt

/-- Start diagonal of a thread: `min(items_per_thread * tid, num_merge_items)`. -/
def mergeStartDiag (m : CsrMatrix) (nt tid : ℕ) : ℕ :=
  min (mergeIpt m nt * tid) (mergeTotal m)

/-- End diagonal of a thread: `min(start_diagonal + items_per_thread, num_merge_items)`. -/
def mergeEndDiag (m : CsrMatrix) (nt tid : ℕ) : ℕ :=
  min (mergeStartDiag m nt tid + mergeIpt m nt) (mergeTotal m)

/-- Starting merge-path coordinate of a thread in `OmpMergeCsrmm`. -/
def mergeCoord (m : CsrMatrix) (nt tid : ℕ) : ℕ × ℕ :=
  MergePathSearch (mergeStartDiag m nt tid) (rowEnds m) m.num_rows m.num_nonzeros

/-- Ending merge-path coordinate of a thread in `OmpMergeCsrmm`. -/
def mergeCoordEnd (m : CsrMatrix) (nt tid : ℕ) : ℕ × ℕ :=
  MergePathSearch (mergeEndDiag m nt tid) (rowEnds m) m.num_rows m.num_nonzeros

/-- Output buffer after the parallel phase of `OmpMergeCsrmm`, with the first
`tcnt` threads applied in tid order (thread writes target pairwise disjoint
rows, so sequentialising the OpenMP loop is faithful). -/
def mergeParallelY (m : CsrMatrix) (xrm : ℕ → ℚ) (nv nt : ℕ) :
    ℕ → (ℕ → ℚ) → (ℕ → ℚ)
  | 0, Y => Y
  | tcnt + 1, Y =>
    (consumeRows (rowEnds m) (spmmG m xrm nv) nv
      ((mergeCoordEnd m nt tcnt).1 - (mergeCoord m nt tcnt).1)
      (mergeCoord m nt tcnt).1 (mergeCoord m nt tcnt).2
      (mergeParallelY m xrm nv nt tcnt Y)).1

/-- Value of the thread's `y` cursor after its "consume whole rows" loop (the
second component of `consumeRows` does not depend on the buffer argument). -/
def mergeYcEnd (m : CsrMatrix) (xrm : ℕ → ℚ) (nv nt tid : ℕ) : ℕ :=
  (consumeRows (rowEnds m) (spmmG m xrm nv) nv
    ((mergeCoordEnd m nt tid).1 - (mergeCoord m nt tid).1)
    (mergeCoord m nt tid).1 (mergeCoord m nt tid).2 (fun _ => 0)).2

/-- Carry-out row id saved by a thread: `row_carry_out[tid] = thread_coord_end.x`. -/
def mergeCarryRow (m : CsrMatrix) (nt tid : ℕ) : ℕ := (mergeCoordEnd m nt tid).1

/-- Carry-out running total saved by a thread: the "consume partial portion of
thread's last row" loop (lines 577-585) accumulates `g` over the nonzeros
from the cursor left by the whole-rows loop up to `thread_coord_end.y`. -/
def mergeCarryVal (m : CsrMatrix) (xrm : ℕ → ℚ) (nv nt tid : ℕ) : ℕ → ℚ :=
  fun i => ∑ k ∈ Finset.Ico (mergeYcEnd m xrm nv nt tid) (mergeCoordEnd m nt tid).2,
    spmmG m xrm nv k i

/-- Sequential carry-out fix-up shared by both load-balanced kernels
(lines 595-604 and 776-785): `for (tid = 0; tid < cnt; ++tid)
  if (row_carry_out[tid] < num_rows) Y[row*nv .. row*nv+nv) += value_carry_out[tid]`.
The kernels invoke it with `cnt = num_threads - 1`. -/
def carryFixup (nr nv : ℕ) (cRow : ℕ → ℕ) (cVal : ℕ → ℕ → ℚ) :
    ℕ → (ℕ → ℚ) → (ℕ → ℚ)
  | 0, Y => Y
  | tid + 1, Y =>
    let Y2 := carryFixup nr nv cRow cVal tid Y
    if cRow tid < nr then addSeg Y2 (cRow tid * nv) nv (cVal tid) else Y2

/-- OpenMP merge-based SpMM kernel `OmpMergeCsrmm` (cpu_spmm_v2.cpp lines
511-605): parallel phase over `num_threads` merge-path segments followed by
the sequential carry-out fix-up over threads `0 .. num_threads - 2`. -/
def ompMergeCsrmm (nt : ℕ) (m : CsrMatrix) (xrm : ℕ → ℚ) (nv : ℕ)
    (Y0 : ℕ → ℚ) : ℕ → ℚ :=
  carryFixup m.num_rows nv (mergeCarryRow m nt) (mergeCarryVal m xrm nv nt)
    (nt - 1) (mergeParallelY m xrm nv nt nt Y0)

/-- Nonzeros per thread in `OmpNonzeroSplitCsrmm`:
`(num_nonzeros + num_threads - 1) / num_threads`. -/
def nzIpt (m : CsrMatrix) (nt : ℕ) : ℕ := (m.num_nonzeros + nt - 1) / nt

/-- Starting nonzero index of a thread: `min(items_per_thread * tid, num_nonzeros)`. -/
def nzStartY (m : CsrMatrix) (nt tid : ℕ) : ℕ :=
  min (nzIpt m nt * tid) m.num_nonzeros

/-- Ending nonzero index of a thread:
`min(thread_coord.y + items_per_thread, num_nonzeros)`. -/
def nzEndY (m : CsrMatrix) (nt tid : ℕ) : ℕ :=
  min (nzStartY m nt tid + nzIpt m nt) m.num_nonzeros

/-- Starting row of a thread in `OmpNonzeroSplitCsrmm`, computed by
`RowPathSearch` from the starting nonzero index. -/
def nzStartX (m : CsrMatrix) (nt tid : ℕ) : ℕ :=
  RowPathSearch (nzStartY m nt tid) (rowEnds m) m.num_rows

/-- Ending row of a thread in `OmpNonzeroSplitCsrmm`, computed by
`RowPathSearch` from the ending nonzero index. -/
def nzEndX (m : CsrMatrix) (nt tid : ℕ) : ℕ :=
  RowPathSearch (nzEndY m nt tid) (rowEnds m) m.num_rows

/-- Output buffer after the parallel phase of `OmpNonzeroSplitCsrmm`
(lines 714-771), first `tcnt` threads applied in tid order. -/
def nzParallelY (m : CsrMatrix) (xrm : ℕ → ℚ) (nv nt : ℕ) :
    ℕ → (ℕ → ℚ) → (ℕ → ℚ)
  | 0, Y => Y
  | tcnt + 1, Y =>
    (consumeRows (rowEnds m) (spmmG m xrm nv) nv
      (nzEndX m nt tcnt - nzStartX m nt tcnt)
      (nzStartX m nt tcnt) (nzStartY m nt tcnt)
      (nzParallelY m xrm nv nt tcnt Y)).1

/-- Cursor value after the whole-rows loop of a thread of `OmpNonzeroSplitCsrmm`. -/
def nzYcEnd (m : CsrMatrix) (xrm : ℕ → ℚ) (nv nt tid : ℕ) : ℕ :=
  (consumeRows (rowEnds m) (spmmG m xrm nv) nv
    (nzEndX m nt tid - nzStartX m nt tid)
    (nzStartX m nt tid) (nzStartY m nt tid) (fun _ => 0)).2

/-- Carry-out row id of a thread of `OmpNonzeroSplitCsrmm`:
`row_carry_out[tid] = thread_coord_end.x`. -/
def nzCarryRow (m : CsrMatrix) (nt tid : ℕ) : ℕ := nzEndX m nt tid

/-- Carry-out running total of a thread of `OmpNonzeroSplitCsrmm`
(partial-row loop, lines 758-766). -/
def nzCarryVal (m : CsrMatrix) (xrm : ℕ → ℚ) (nv nt tid : ℕ) : ℕ → ℚ :=
  fun i => ∑ k ∈ Finset.Ico (nzYcEnd m xrm nv nt tid) (nzEndY m nt tid),
    spmmG m xrm nv k i

/-- OpenMP nonzero-splitting SpMM kernel `OmpNonzeroSplitCsrmm`
(cpu_spmm_v2.cpp lines 692-786): parallel phase over `num_threads`
equal-nonzero-count segments followed by the carry-out fix-up over threads
`0 .. num_threads - 2`. -/
def ompNonzeroSplitCsrmm (nt : ℕ) (m : CsrMatrix) (xrm : ℕ → ℚ) (nv : ℕ)
    (Y0 : ℕ → ℚ) : ℕ → ℚ :=
  carryFixup m.num_rows nv (nzCarryRow m nt) (nzCarryVal m xrm nv nt)
    (nt - 1) (nzParallelY m xrm nv nt nt Y0)

/-- Body of the serial reference loop `SpmvGold` (cpu_spmm_v2.cpp lines
257-280) applied to the first `rcnt` rows:
`partial = beta * y_in[row]; for (offset = ro[row]; offset < ro[row+1]; ++offset)
  partial += alpha * values[offset] * x[cols[offset]]; y_out[row] = partial`. -/
def spmvGoldAux (m : CsrMatrix) (x yIn : ℕ → ℚ) (alpha beta : ℚ) :
    ℕ → (ℕ → ℚ) → (ℕ → ℚ)
  | 0, Y => Y
  | r + 1, Y =>
    Function.update (spmvGoldAux m x yIn alpha beta r Y) r
      (beta * yIn r +
        ∑ k ∈ Finset.Ico (m.row_offsets r) (m.row_offsets (r + 1)),
          alpha * m.values k * x (m.column_indices k))

/-- Serial reference kernel `SpmvGold`: writes rows `0 .. num_rows - 1` of the
output buffer and leaves every other slot of `vector_y_out` unchanged. -/
def spmvGold (m : CsrMatrix) (x yIn yOut0 : ℕ → ℚ) (alpha beta : ℚ) : ℕ → ℚ :=
  spmvGoldAux m x yIn alpha beta m.num_rows yOut0

/-- Inner loop of the layout-transposing prepass of `OmpCsrSpmmT`
(cpu_spmm_v2.cpp lines 306-309):
`for (j = i; j < num_cols*num_vectors; j += num_cols)
  { x_rm[xt_index] = x[j]; xt_index += 1; }`;
for `i < num_cols` the loop runs exactly `num_vectors` times (the fuel).
Returns the buffer and the advanced cursor. -/
def transInner (x : ℕ → ℚ) (step : ℕ) : ℕ → ℕ → ℕ → (ℕ → ℚ) → (ℕ → ℚ) × ℕ
  | 0, _, cur, xrm => (xrm, cur)
  | c + 1, j, cur, xrm =>
    transInner x step c (j + step) (cur + 1) (Function.update xrm cur (x j))

/-- Outer loop of the transposing prepass (`for (i = 0; i < num_cols; i++)`).
The cursor `xt_index` is declared `private` in the OpenMP pragma and never
initialised inside the parallel region, so its starting value is
indeterminate; it is exposed here as the parameter threaded through `cur`. -/
def transOuter (x : ℕ → ℚ) (ncols nv : ℕ) : ℕ → ℕ → ℕ → (ℕ → ℚ) → (ℕ → ℚ)
  | 0, _, _, xrm => xrm
  | n + 1, i, cur, xrm =>
    let r := transInner x ncols nv i cur xrm
    transOuter x ncols nv n (i + 1) r.2 r.1

/-- Transposing prepass of `OmpCsrSpmmT` executed with (uninitialised) cursor
starting value `u`, overwriting the scratch buffer `xrm0`. -/
def transposeX (x : ℕ → ℚ) (ncols nv u : ℕ) (xrm0 : ℕ → ℚ) : ℕ → ℚ :=
  transOuter x ncols nv ncols 0 u xrm0

/-- Column-major write-back of one row of `OmpCsrSpmmT` (lines 336-341):
`for (i = 0; i < nv; i++) Y[row + i*num_rows] = vals[i]`. -/
def writeColsLoop (row nrows : ℕ) (vals : ℕ → ℚ) : ℕ → (ℕ → ℚ) → (ℕ → ℚ)
  | 0, Y => Y
  | i + 1, Y =>
    Function.update (writeColsLoop row nrows vals i Y) (row + i * nrows) (vals i)

/-- Main row loop of `OmpCsrSpmmT` (lines 313-342) over the first `rcnt` rows:
accumulates the row's products into `partial` and writes it back row-major
(`Y[row*nv + i]`) or column-major (`Y[row + i*num_rows]`) depending on
`g_output_row_major`. -/
def spmmTRows (m : CsrMatrix) (xrm : ℕ → ℚ) (nv : ℕ) (out_rm : Bool) :
    ℕ → (ℕ → ℚ) → (ℕ → ℚ)
  | 0, Y => Y
  | r + 1, Y =>
    let pvals := fun i =>
      ∑ k ∈ Finset.Ico (m.row_offsets r) (m.row_offsets (r + 1)),
        spmmG m xrm nv k i
    let Y2 := spmmTRows m xrm nv out_rm r Y
    if out_rm then writeSeg Y2 (r * nv) nv pvals
    else writeColsLoop r m.num_rows pvals nv Y2

/-- Row-parallel baseline kernel `OmpCsrSpmmT` (cpu_spmm_v2.cpp lines
287-343).  When `g_input_row_major` is false the transposing prepass first
rewrites the scratch buffer `vector_x_row_major` from `vector_x`, threading
the uninitialised `private` cursor value `u`; the row loop then reads the
scratch buffer.  The row loop writes disjoint slots per row, so the OpenMP
loop is sequentialised.  The thread count only affects OpenMP scheduling, not
the computed values, so it is ignored here. -/
def ompCsrSpmmT (num_threads : ℕ) (m : CsrMatrix) (x xrm0 : ℕ → ℚ) (nv : ℕ)
    (in_rm out_rm : Bool) (u : ℕ) (Y0 : ℕ → ℚ) : ℕ → ℚ :=
  let _ := num_threads
  let xrm := if in_rm then xrm0 else transposeX x m.num_cols nv u xrm0
  spmmTRows m xrm nv out_rm m.num_rows Y0

/-- Loop of `axpy_` (axpy.cpp lines 18-22):
`for (i = 0; i < size; i++) y[i] += a * x[i]`, iterating `fuel` more times
starting at index `i`. -/
def axpyLoop (a : ℚ) (x : ℕ → ℚ) : ℕ → ℕ → (ℕ → ℚ) → (ℕ → ℚ)
  | 0, _, y => y
  | fuel + 1, i, y => axpyLoop a x fuel (i + 1) (Function.update y i (y i + a * x i))

/-- Accumulating AXPY `axpy_`: adds `a * x[i]` into `y[i]` for `i < size`. -/
def axpy_ (size : ℕ) (a : ℚ) (x y : ℕ → ℚ) : ℕ → ℚ := axpyLoop a x size 0 y

/-- Loop of `axpy_2` (axpy.cpp lines 24-28):
`while (size--) *(y++) = a * *(x++);` — the pointer walk writes index `i`
then advances, so it is transcribed with the same index cursor. -/
def axpy2Loop (a : ℚ) (x : ℕ → ℚ) : ℕ → ℕ → (ℕ → ℚ) → (ℕ → ℚ)
  | 0, _, y => y
  | fuel + 1, i, y => axpy2Loop a x fuel (i + 1) (Function.update y i (a * x i))

/-- Overwriting AXPY `axpy_2`: sets `y[i] = a * x[i]` for `i < size` (despite
the shared name it overwrites instead of accumulating). -/
def axpy_2 (size : ℕ) (a : ℚ) (x y : ℕ → ℚ) : ℕ → ℚ := axpy2Loop a x size 0 y

/-- Finset of indices at which the two load-balanced kernels access the
256-entry carry-out arrays `row_carry_out` / `value_carry_out`: the parallel
loop writes at `tid ∈ [0, num_threads)` (lines 587-589 resp. 768-770) and the
fix-up reads at `tid ∈ [0, num_threads - 1)` (lines 595-604 resp. 776-785). -/
def carryAccessIdx (nt : ℕ) : Finset ℕ :=
  Finset.range nt ∪ Finset.range (nt - 1)

/-- Test matrix with two rows and one column, one nonzero per row
(`row_offsets = [0,1,2]`, both nonzeros in column 0 with value 1). -/
def mEx1 : CsrMatrix :=
  { num_rows := 2, num_cols := 1, num_nonzeros := 2,
    row_offsets := fun r => [0, 1, 2].getD r 0,
    column_indices := fun _ => 0, values := fun _ => 1 }

/-- Test matrix with a single row holding five nonzeros
(`row_offsets = [0,5]`), all in column 0 with value 1. -/
def mEx2 : CsrMatrix :=
  { num_rows := 1, num_cols := 1, num_nonzeros := 5,
    row_offsets := fun r => [0, 5].getD r 0,
    column_indices := fun _ => 0, values := fun _ => 1 }

/-- Row-offset sequence `[0, 2, 3]` used to probe `MergePathSearch` at a
diagonal that lands exactly on a row end. -/
def roEx6 : ℕ → ℕ := fun r => [0, 2, 3].getD r 3

/-- Row-end sequence derived from `roEx6`, the list A passed to
`MergePathSearch` by the kernels. -/
def aEx6 : ℕ → ℕ := fun x => roEx6 (x + 1)

/-- Test matrix with one row and two columns, nonzeros in columns 0 and 1
(`row_offsets = [0,2]`), both with value 1. -/
def mEx8 : CsrMatrix :=
  { num_rows := 1, num_cols := 2, num_nonzeros := 2,
    row_offsets := fun r => [0, 2].getD r 0,
    column_indices := fun k => [0, 1].getD k 0, values := fun _ => 1 }

/-- Logical dense vector `[5, 7]` (one column, so the row-major and
column-major layouts have identical buffer contents). -/
def xEx8 : ℕ → ℚ := fun j => [(5 : ℚ), 7].getD j 0

/-- All-ones dense buffer. -/
def oneVec : ℕ → ℚ := fun _ => 1

/-- All-zeros dense buffer. -/
def zeroVec : ℕ → ℚ := fun _ => 0

theorem ro_mono (m : CsrMatrix) (wf : CsrWf m) :
    ∀ i j, i ≤ j → j ≤ m.num_rows → m.row_offsets i ≤ m.row_offsets j := by
  intro i j hij hj
  induction j with
  | zero =>
    have h0 : i = 0 := by omega
    subst h0
    exact le_refl _
  | succ n ih =>
    rcases Nat.eq_or_lt_of_le hij with h | h
    · subst h
      exact le_refl _
    · exact le_trans (ih (by omega) (by omega)) (wf.2.2.1 n (by omega))

theorem ro_le_nnz (m : CsrMatrix) (wf : CsrWf m) :
    ∀ r, r ≤ m.num_rows → m.row_offsets r ≤ m.num_nonzeros := by
  intro r hr
  have h1 := ro_mono m wf r m.num_rows hr (le_refl _)
  have h2 := wf.2.1
  omega

theorem writeSeg_mem (Y : ℕ → ℚ) (base nv : ℕ) (vals : ℕ → ℚ) (j : ℕ)
    (h1 : base ≤ j) (h2 : j < base + nv) :
    writeSeg Y base nv vals j = vals (j - base) := by
  simp [writeSeg, h1, h2]

theorem writeSeg_notMem (Y : ℕ → ℚ) (base nv : ℕ) (vals : ℕ → ℚ) (j : ℕ)
    (h : ¬ (base ≤ j ∧ j < base + nv)) :
    writeSeg Y base nv vals j = Y j := by
  simp only [writeSeg, if_neg h]

theorem addSeg_mem (Y : ℕ → ℚ) (base nv : ℕ) (vals : ℕ → ℚ) (j : ℕ)
    (h1 : base ≤ j) (h2 : j < base + nv) :
    addSeg Y base nv vals j = Y j + vals (j - base) := by
  simp [addSeg, h1, h2]

theorem addSeg_notMem (Y : ℕ → ℚ) (base nv : ℕ) (vals : ℕ → ℚ) (j : ℕ)
    (h : ¬ (base ≤ j ∧ j < base + nv)) :
    addSeg Y base nv vals j = Y j := by
  simp only [addSeg, if_neg h]

theorem slot_cases (r c i nv : ℕ) (hi : i < nv) :
    (c * nv ≤ r * nv + i ∧ r * nv + i < c * nv + nv) ↔ c = r := by
  constructor
  · rintro ⟨h1, h2⟩
    rcases Nat.lt_trichotomy c r with h | h | h
    · exfalso
      have : c + 1 ≤ r := h
      have : (c + 1) * nv ≤ r * nv := Nat.mul_le_mul_right _ this
      nlinarith
    · exact h
    · exfalso
      have : r + 1 ≤ c := h
      have : (r + 1) * nv ≤ c * nv := Nat.mul_le_mul_right _ this
      nlinarith
  · rintro rfl
    omega

theorem mpsLoopF_spec (a : ℕ → ℕ) (d hi : ℕ)
    (hP : ∀ x y, x ≤ y → y < hi → ¬ (a x ≤ d - x - 1) → ¬ (a y ≤ d - y - 1)) :
    ∀ fuel lo mid, lo ≤ mid → mid ≤ hi → mid - lo ≤ fuel →
      lo ≤ mpsLoopF a d fuel lo mid ∧
      mpsLoopF a d fuel lo mid ≤ mid ∧
      (∀ x, lo ≤ x → x < mpsLoopF a d fuel lo mid → a x ≤ d - x - 1) ∧
      (∀ x, mpsLoopF a d fuel lo mid ≤ x → x < mid → ¬ (a x ≤ d - x - 1)) := by
  intro fuel
  induction fuel with
  | zero =>
    intro lo mid h1 h2 h3
    have : lo = mid := by omega
    subst this
    simp only [mpsLoopF]
    exact ⟨le_refl _, le_refl _, by omega, by omega⟩
  | succ fuel ih =>
    intro lo mid h1 h2 h3
    by_cases hlm : lo < mid
    · have hpl : lo ≤ (lo + mid) / 2 := by omega
      have hpm : (lo + mid) / 2 < mid := by omega
      by_cases hc : a ((lo + mid) / 2) ≤ d - (lo + mid) / 2 - 1
      · have heq : mpsLoopF a d (fuel + 1) lo mid =
            mpsLoopF a d fuel ((lo + mid) / 2 + 1) mid := by
          simp only [mpsLoopF, if_pos hlm, if_pos hc]
        rw [heq]
        obtain ⟨k1, k2, k3, k4⟩ := ih ((lo + mid) / 2 + 1) mid (by omega) h2 (by omega)
        refine ⟨by omega, k2, ?_, k4⟩
        intro x hx1 hx2
        by_cases hxp : (lo + mid) / 2 + 1 ≤ x
        · exact k3 x hxp hx2
        · by_contra hx
          exact hP x ((lo + mid) / 2) (by omega) (by omega) hx hc
      · have heq : mpsLoopF a d (fuel + 1) lo mid =
            mpsLoopF a d fuel lo ((lo + mid) / 2) := by
          simp only [mpsLoopF, if_pos hlm, if_neg hc]
        rw [heq]
        obtain ⟨k1, k2, k3, k4⟩ := ih lo ((lo + mid) / 2) hpl (by omega) (by omega)
        refine ⟨k1, by omega, k3, ?_⟩
        intro x hx1 hx2
        by_cases hxp : x < (lo + mid) / 2
        · exact k4 x hx1 hxp
        · exact hP ((lo + mid) / 2) x (by omega) (by omega) hc
    · have heq : mpsLoopF a d (fuel + 1) lo mid = lo := by
        simp only [mpsLoopF, if_neg hlm]
      rw [heq]
      exact ⟨le_refl _, h1, by omega, by omega⟩

theorem mergeSearch_spec (m : CsrMatrix) (wf : CsrWf m) (d : ℕ)
    (hd : d ≤ mergeTotal m) :
    d - m.num_nonzeros ≤ (MergePathSearch d (rowEnds m) m.num_rows m.num_nonzeros).1 ∧
    (MergePathSearch d (rowEnds m) m.num_rows m.num_nonzeros).1 ≤ min d m.num_rows ∧
    (∀ x, d - m.num_nonzeros ≤ x →
      x < (MergePathSearch d (rowEnds m) m.num_rows m.num_nonzeros).1 →
      rowEnds m x ≤ d - x - 1) ∧
    (∀ x, (MergePathSearch d (rowEnds m) m.num_rows m.num_nonzeros).1 ≤ x →
      x < min d m.num_rows → ¬ (rowEnds m x ≤ d - x - 1)) ∧
    (MergePathSearch d (rowEnds m) m.num_rows m.num_nonzeros).2 =
      d - (MergePathSearch d (rowEnds m) m.num_rows m.num_nonzeros).1 := by
  have htot : mergeTotal m = m.num_rows + m.num_nonzeros := rfl
  have hP : ∀ x y, x ≤ y → y < min d m.num_rows →
      ¬ (rowEnds m x ≤ d - x - 1) → ¬ (rowEnds m y ≤ d - y - 1) := by
    intro x y hxy hy hx hcon
    have hxy2 : rowEnds m x ≤ rowEnds m y :=
      ro_mono m wf (x + 1) (y + 1) (by omega) (by omega)
    exact hx (by omega)
  have hlohi : d - m.num_nonzeros ≤ min d m.num_rows := by omega
  obtain ⟨k1, k2, k3, k4⟩ := mpsLoopF_spec (rowEnds m) d (min d m.num_rows) hP
    (min d m.num_rows - (d - m.num_nonzeros)) (d - m.num_nonzeros)
    (min d m.num_rows) hlohi (le_refl _) (le_refl _)
  have hfst : (MergePathSearch d (rowEnds m) m.num_rows m.num_nonzeros).1 =
      mpsLoopF (rowEnds m) d (min d m.num_rows - (d - m.num_nonzeros))
        (d - m.num_nonzeros) (min d m.num_rows) := by
    simp only [MergePathSearch]
    omega
  have hsnd : (MergePathSearch d (rowEnds m) m.num_rows m.num_nonzeros).2 =
      d - mpsLoopF (rowEnds m) d (min d m.num_rows - (d - m.num_nonzeros))
        (d - m.num_nonzeros) (min d m.num_rows) := by
    simp only [MergePathSearch]
  rw [hfst, hsnd]
  exact ⟨k1, k2, k3, k4, rfl⟩

theorem mps_lower (m : CsrMatrix) (wf : CsrWf m) (d : ℕ) (hd : d ≤ mergeTotal m) :
    m.row_offsets (MergePathSearch d (rowEnds m) m.num_rows m.num_nonzeros).1 ≤
      d - (MergePathSearch d (rowEnds m) m.num_rows m.num_nonzeros).1 := by
  obtain ⟨k1, k2, k3, k4, k5⟩ := mergeSearch_spec m wf d hd
  set x := (MergePathSearch d (rowEnds m) m.num_rows m.num_nonzeros).1 with hx
  by_cases hxl : d - m.num_nonzeros < x
  · have := k3 (x - 1) (by omega) (by omega)
    have hre : rowEnds m (x - 1) = m.row_offsets x := by
      unfold rowEnds
      congr 1
      omega
    omega
  · have hxeq : x = d - m.num_nonzeros := by omega
    by_cases hdn : d ≤ m.num_nonzeros
    · have : x = 0 := by omega
      rw [this, wf.1]
      omega
    · have hxnr : x ≤ m.num_rows := by omega
      have := ro_le_nnz m wf x hxnr
      omega

theorem mps_upper (m : CsrMatrix) (wf : CsrWf m) (d : ℕ) (hd : d ≤ mergeTotal m)
    (hlt : (MergePathSearch d (rowEnds m) m.num_rows m.num_nonzeros).1 < m.num_rows) :
    d - (MergePathSearch d (rowEnds m) m.num_rows m.num_nonzeros).1 ≤
      m.row_offsets ((MergePathSearch d (rowEnds m) m.num_rows m.num_nonzeros).1 + 1) := by
  obtain ⟨k1, k2, k3, k4, k5⟩ := mergeSearch_spec m wf d hd
  set x := (MergePathSearch d (rowEnds m) m.num_rows m.num_nonzeros).1 with hx
  by_cases hxh : x < min d m.num_rows
  · have := k4 x (le_refl _) hxh
    have hre : rowEnds m x = m.row_offsets (x + 1) := rfl
    omega
  · have : x = min d m.num_rows := by omega
    have hxd : x = d := by omega
    omega

theorem mps_x_mono (m : CsrMatrix) (wf : CsrWf m) (d d' : ℕ)
    (hd' : d' ≤ mergeTotal m) (hdd : d ≤ d') :
    (MergePathSearch d (rowEnds m) m.num_rows m.num_nonzeros).1 ≤
      (MergePathSearch d' (rowEnds m) m.num_rows m.num_nonzeros).1 := by
  have hd : d ≤ mergeTotal m := by omega
  obtain ⟨k1, k2, k3, k4, k5⟩ := mergeSearch_spec m wf d hd
  obtain ⟨l1, l2, l3, l4, l5⟩ := mergeSearch_spec m wf d' hd'
  set x := (MergePathSearch d (rowEnds m) m.num_rows m.num_nonzeros).1 with hx
  set x' := (MergePathSearch d' (rowEnds m) m.num_rows m.num_nonzeros).1 with hx'
  by_contra hcon
  push_neg at hcon
  have hx'lo : d - m.num_nonzeros ≤ x' := by omega
  have h3 := k3 x' hx'lo (by omega)
  have h4 := l4 x' (le_refl _) (by omega)
  omega

theorem rpsLoopF_spec (a : ℕ → ℕ) (yb : ℤ) (hi : ℕ)
    (hmono : ∀ x y, x ≤ y → y < hi → a x ≤ a y) :
    ∀ fuel lo mid, lo ≤ mid → mid ≤ hi → mid - lo ≤ fuel →
      lo ≤ rpsLoopF a yb fuel lo mid ∧
      rpsLoopF a yb fuel lo mid ≤ mid ∧
      (∀ x, lo ≤ x → x < rpsLoopF a yb fuel lo mid → (a x : ℤ) ≤ yb) ∧
      (∀ x, rpsLoopF a yb fuel lo mid ≤ x → x < mid → ¬ ((a x : ℤ) ≤ yb)) := by
  intro fuel
  induction fuel with
  | zero =>
    intro lo mid h1 h2 h3
    have : lo = mid := by omega
    subst this
    simp only [rpsLoopF]
    exact ⟨le_refl _, le_refl _, by omega, by omega⟩
  | succ fuel ih =>
    intro lo mid h1 h2 h3
    by_cases hlm : lo < mid
    · have hpl : lo ≤ (lo + mid) / 2 := by omega
      have hpm : (lo + mid) / 2 < mid := by omega
      by_cases hc : (a ((lo + mid) / 2) : ℤ) ≤ yb
      · have heq : rpsLoopF a yb (fuel + 1) lo mid =
            rpsLoopF a yb fuel ((lo + mid) / 2 + 1) mid := by
          simp only [rpsLoopF, if_pos hlm, if_pos hc]
        rw [heq]
        obtain ⟨k1, k2, k3, k4⟩ := ih ((lo + mid) / 2 + 1) mid (by omega) h2 (by omega)
        refine ⟨by omega, k2, ?_, k4⟩
        intro x hx1 hx2
        by_cases hxp : (lo + mid) / 2 + 1 ≤ x
        · exact k3 x hxp hx2
        · have hax : a x ≤ a ((lo + mid) / 2) := hmono x _ (by omega) (by omega)
          have : (a x : ℤ) ≤ (a ((lo + mid) / 2) : ℤ) := by exact_mod_cast hax
          omega
      · have heq : rpsLoopF a yb (fuel + 1) lo mid =
            rpsLoopF a yb fuel lo ((lo + mid) / 2) := by
          simp only [rpsLoopF, if_pos hlm, if_neg hc]
        rw [heq]
        obtain ⟨k1, k2, k3, k4⟩ := ih lo ((lo + mid) / 2) hpl (by omega) (by omega)
        refine ⟨k1, by omega, k3, ?_⟩
        intro x hx1 hx2
        by_cases hxp : x < (lo + mid) / 2
        · exact k4 x hx1 hxp
        · have hax : a ((lo + mid) / 2) ≤ a x := hmono _ x (by omega) (by omega)
          have : (a ((lo + mid) / 2) : ℤ) ≤ (a x : ℤ) := by exact_mod_cast hax
          omega
    · have heq : rpsLoopF a yb (fuel + 1) lo mid = lo := by
        simp only [rpsLoopF, if_neg hlm]
      rw [heq]
      exact ⟨le_refl _, h1, by omega, by omega⟩

theorem rowSearch_spec (m : CsrMatrix) (wf : CsrWf m) (y : ℕ) :
    RowPathSearch y (rowEnds m) m.num_rows ≤ m.num_rows ∧
    (∀ x, x < RowPathSearch y (rowEnds m) m.num_rows → rowEnds m x < y) ∧
    (∀ x, RowPathSearch y (rowEnds m) m.num_rows ≤ x → x < m.num_rows →
      y ≤ rowEnds m x) := by
  have hmono : ∀ x z, x ≤ z → z < m.num_rows → rowEnds m x ≤ rowEnds m z := by
    intro x z hxz hz
    exact ro_mono m wf (x + 1) (z + 1) (by omega) (by omega)
  obtain ⟨k1, k2, k3, k4⟩ := rpsLoopF_spec (rowEnds m) ((y : ℤ) - 1) m.num_rows hmono
    m.num_rows 0 m.num_rows (by omega) (le_refl _) (le_refl _)
  have hres : RowPathSearch y (rowEnds m) m.num_rows =
      rpsLoopF (rowEnds m) ((y : ℤ) - 1) m.num_rows 0 m.num_rows := by
    simp only [RowPathSearch]
    omega
  rw [hres]
  refine ⟨k2, ?_, ?_⟩
  · intro x hx
    have := k3 x (by omega) hx
    omega
  · intro x hx1 hx2
    have := k4 x hx1 hx2
    omega

theorem rps_x_mono (m : CsrMatrix) (wf : CsrWf m) (y y' : ℕ) (hyy : y ≤ y') :
    RowPathSearch y (rowEnds m) m.num_rows ≤
      RowPathSearch y' (rowEnds m) m.num_rows := by
  obtain ⟨k1, k2, k3⟩ := rowSearch_spec m wf y
  obtain ⟨l1, l2, l3⟩ := rowSearch_spec m wf y'
  by_contra hcon
  push_neg at hcon
  have h2 := l3 (RowPathSearch y (rowEnds m) m.num_rows - 1)
    (by omega) (by omega)
  have h3 := k2 (RowPathSearch y (rowEnds m) m.num_rows - 1)
    (by omega)
  omega

theorem rps_zero (m : CsrMatrix) (wf : CsrWf m) :
    RowPathSearch 0 (rowEnds m) m.num_rows = 0 := by
  obtain ⟨k1, k2, k3⟩ := rowSearch_spec m wf 0
  by_contra hcon
  have := k2 0 (by omega)
  omega

theorem consumeRows_snd_indep (rend : ℕ → ℕ) (g : ℕ → ℕ → ℚ) (nv : ℕ) :
    ∀ fuel x y Y Y2, (consumeRows rend g nv fuel x y Y).2 =
      (consumeRows rend g nv fuel x y Y2).2 := by
  intro fuel
  induction fuel with
  | zero => intro x y Y Y2; rfl
  | succ fuel ih =>
    intro x y Y Y2
    simp only [consumeRows]
    exact ih (x + 1) (max y (rend x)) _ _

theorem consumeRows_snd_ge (rend : ℕ → ℕ) (g : ℕ → ℕ → ℚ) (nv : ℕ) :
    ∀ fuel x y Y, y ≤ (consumeRows rend g nv fuel x y Y).2 := by
  intro fuel
  induction fuel with
  | zero => intro x y Y; exact le_refl _
  | succ fuel ih =>
    intro x y Y
    simp only [consumeRows]
    exact le_trans (le_max_left _ _) (ih (x + 1) (max y (rend x)) _)

theorem consumeRows_snd_ge_rend (rend : ℕ → ℕ) (g : ℕ → ℕ → ℚ) (nv : ℕ) :
    ∀ fuel x y Y, 1 ≤ fuel →
      rend (x + fuel - 1) ≤ (consumeRows rend g nv fuel x y Y).2 := by
  intro fuel
  induction fuel with
  | zero => intro x y Y h; omega
  | succ fuel ih =>
    intro x y Y _
    simp only [consumeRows]
    rcases Nat.eq_zero_or_pos fuel with h0 | h0
    · subst h0
      simp only [consumeRows]
      have : x + 1 - 1 = x := by omega
      rw [this]
      exact le_max_right _ _
    · have := ih (x + 1) (max y (rend x))
        (writeSeg Y (x * nv) nv (fun i => ∑ k ∈ Finset.Ico y (rend x), g k i)) h0
      have harg : x + 1 + fuel - 1 = x + (fuel + 1) - 1 := by omega
      rw [harg] at this
      exact this

theorem consumeRows_fst_notMem (rend : ℕ → ℕ) (g : ℕ → ℕ → ℚ) (nv : ℕ) :
    ∀ fuel x y Y j,
      (∀ t, t < fuel → ¬ ((x + t) * nv ≤ j ∧ j < (x + t) * nv + nv)) →
      (consumeRows rend g nv fuel x y Y).1 j = Y j := by
  intro fuel
  induction fuel with
  | zero => intro x y Y j _; rfl
  | succ fuel ih =>
    intro x y Y j hj
    simp only [consumeRows]
    rw [ih (x + 1) (max y (rend x)) _ j (by
      intro t ht
      have := hj (t + 1) (by omega)
      have harg : x + 1 + t = x + (t + 1) := by omega
      rw [harg]
      exact this)]
    exact writeSeg_notMem _ _ _ _ _ (by
      have := hj 0 (by omega)
      simpa using this)

theorem consumeRows_fst_row (rend : ℕ → ℕ) (g : ℕ → ℕ → ℚ) (nv : ℕ) :
    ∀ fuel x y Y r i, i < nv → x ≤ r → r < x + fuel →
      (consumeRows rend g nv fuel x y Y).1 (r * nv + i) =
        ∑ k ∈ Finset.Ico ((consumeRows rend g nv (r - x) x y Y).2) (rend r), g k i := by
  intro fuel
  induction fuel with
  | zero => intro x y Y r i _ _ _; omega
  | succ fuel ih =>
    intro x y Y r i hi hxr hrf
    rcases Nat.eq_or_lt_of_le hxr with heq | hlt
    · subst heq
      simp only [consumeRows, Nat.sub_self]
      rw [consumeRows_fst_notMem rend g nv fuel (x + 1) _ _ _ (by
        intro t ht
        rw [slot_cases x (x + 1 + t) i nv hi]
        omega)]
      rw [writeSeg_mem _ _ _ _ _ (by omega) (by omega)]
      have : x * nv + i - x * nv = i := by omega
      rw [this]
    · have hstep : (consumeRows rend g nv (fuel + 1) x y Y).1 =
          (consumeRows rend g nv fuel (x + 1) (max y (rend x))
            (writeSeg Y (x * nv) nv
              (fun i => ∑ k ∈ Finset.Ico y (rend x), g k i))).1 := by
        simp only [consumeRows]
      rw [hstep]
      rw [ih (x + 1) (max y (rend x)) _ r i hi (by omega) (by omega)]
      congr 1
      have hrx : r - x = (r - (x + 1)) + 1 := by omega
      rw [hrx]
      simp only [consumeRows]

theorem carryFixup_val (nr nv : ℕ) (cRow : ℕ → ℕ) (cVal : ℕ → ℕ → ℚ) :
    ∀ cnt Y r i, i < nv → r < nr →
      carryFixup nr nv cRow cVal cnt Y (r * nv + i) =
        Y (r * nv + i) +
          ∑ t ∈ (Finset.range cnt).filter (fun t => cRow t = r), cVal t i := by
  intro cnt
  induction cnt with
  | zero =>
    intro Y r i _ _
    simp [carryFixup]
  | succ cnt ih =>
    intro Y r i hi hr
    simp only [carryFixup]
    by_cases hc : cRow cnt = r
    · rw [if_pos (by omega)]
      rw [addSeg_mem _ _ _ _ _ (by rw [hc]; omega) (by rw [hc]; omega)]
      rw [ih Y r i hi hr]
      have hsub : r * nv + i - cRow cnt * nv = i := by rw [hc]; omega
      rw [hsub]
      rw [Finset.range_succ, Finset.filter_insert, if_pos hc]
      rw [Finset.sum_insert (by simp)]
      ring
    · have hfil : (Finset.range (cnt + 1)).filter (fun t => cRow t = r) =
          (Finset.range cnt).filter (fun t => cRow t = r) := by
        rw [Finset.range_succ, Finset.filter_insert, if_neg hc]
      by_cases hlt : cRow cnt < nr
      · rw [if_pos hlt]
        rw [addSeg_notMem _ _ _ _ _ (by
          rw [slot_cases r (cRow cnt) i nv hi]
          omega)]
        rw [ih Y r i hi hr, hfil]
      · rw [if_neg hlt]
        rw [ih Y r i hi hr, hfil]

theorem ceil_div_mul_ge (a b : ℕ) (hb : 1 ≤ b) : a ≤ ((a + b - 1) / b) * b := by
  rcases Nat.eq_zero_or_pos a with h0 | h0
  · omega
  · have h := (Nat.div_lt_iff_lt_mul hb).mp
      (show (a + b - 1) / b < (a + b - 1) / b + 1 by omega)
    have h2 : ((a + b - 1) / b + 1) * b = ((a + b - 1) / b) * b + b :=
      add_one_mul _ _
    omega

theorem mergeEndDiag_eq_next (m : CsrMatrix) (nt t : ℕ) :
    mergeEndDiag m nt t = mergeStartDiag m nt (t + 1) := by
  unfold mergeEndDiag mergeStartDiag
  have h : mergeIpt m nt * (t + 1) = mergeIpt m nt * t + mergeIpt m nt :=
    Nat.mul_succ _ _
  omega

theorem mergeStartDiag_zero (m : CsrMatrix) (nt : ℕ) : mergeStartDiag m nt 0 = 0 := by
  unfold mergeStartDiag
  simp

theorem mergeStartDiag_le_total (m : CsrMatrix) (nt t : ℕ) :
    mergeStartDiag m nt t ≤ mergeTotal m := by
  unfold mergeStartDiag
  omega

theorem mergeEndDiag_le_total (m : CsrMatrix) (nt t : ℕ) :
    mergeEndDiag m nt t ≤ mergeTotal m := by
  unfold mergeEndDiag
  omega

theorem mergeStartDiag_mono (m : CsrMatrix) (nt t t2 : ℕ) (h : t ≤ t2) :
    mergeStartDiag m nt t ≤ mergeStartDiag m nt t2 := by
  unfold mergeStartDiag
  have := Nat.mul_le_mul_left (mergeIpt m nt) h
  omega

theorem mergeStartDiag_last (m : CsrMatrix) (nt : ℕ) (hnt : 1 ≤ nt) :
    mergeStartDiag m nt nt = mergeTotal m := by
  unfold mergeStartDiag
  have := ceil_div_mul_ge (mergeTotal m) nt hnt
  unfold mergeIpt at *
  omega

theorem mergeDiag_partition (m : CsrMatrix) (nt : ℕ) (hnt : 1 ≤ nt) (d : ℕ)
    (hd : d < mergeTotal m) :
    ∃! t, t < nt ∧ mergeStartDiag m nt t ≤ d ∧ d < mergeEndDiag m nt t := by
  have hT : 1 ≤ mergeTotal m := by omega
  have hipt : 1 ≤ mergeIpt m nt := by
    unfold mergeIpt
    have : nt ≤ mergeTotal m + nt - 1 := by omega
    have := (Nat.le_div_iff_mul_le (show 0 < nt by omega)).mpr
      (show 1 * nt ≤ mergeTotal m + nt - 1 by omega)
    omega
  have hceil := ceil_div_mul_ge (mergeTotal m) nt hnt
  have hceil2 : mergeTotal m ≤ mergeIpt m nt * nt := by
    unfold mergeIpt
    have : ((mergeTotal m + nt - 1) / nt) * nt = nt * ((mergeTotal m + nt - 1) / nt) :=
      Nat.mul_comm _ _
    omega
  refine ⟨d / mergeIpt m nt, ⟨?_, ?_, ?_⟩, ?_⟩
  · have := (Nat.div_lt_iff_lt_mul (show 0 < mergeIpt m nt by omega)).mpr
      (show d < nt * mergeIpt m nt by
        have : mergeIpt m nt * nt = nt * mergeIpt m nt := Nat.mul_comm _ _
        omega)
    exact this
  · unfold mergeStartDiag
    have h1 : (d / mergeIpt m nt) * mergeIpt m nt ≤ d := Nat.div_mul_le_self _ _
    have h2 : mergeIpt m nt * (d / mergeIpt m nt) = (d / mergeIpt m nt) * mergeIpt m nt :=
      Nat.mul_comm _ _
    omega
  · unfold mergeEndDiag mergeStartDiag
    have h1 := Nat.div_add_mod d (mergeIpt m nt)
    have h2 := Nat.mod_lt d (show 0 < mergeIpt m nt by omega)
    omega
  · rintro t2 ⟨ht2, hs2, he2⟩
    by_contra hne
    rcases Nat.lt_or_ge t2 (d / mergeIpt m nt) with hlt | hge
    · have hchain : mergeEndDiag m nt t2 ≤ mergeStartDiag m nt (d / mergeIpt m nt) := by
        rw [mergeEndDiag_eq_next]
        exact mergeStartDiag_mono m nt (t2 + 1) _ (by omega)
      have hsd : mergeStartDiag m nt (d / mergeIpt m nt) ≤ d := by
        unfold mergeStartDiag
        have h1 : (d / mergeIpt m nt) * mergeIpt m nt ≤ d := Nat.div_mul_le_self _ _
        have h2 : mergeIpt m nt * (d / mergeIpt m nt) =
            (d / mergeIpt m nt) * mergeIpt m nt := Nat.mul_comm _ _
        omega
      omega
    · have hgt : d / mergeIpt m nt < t2 := by omega
      have hchain : mergeEndDiag m nt (d / mergeIpt m nt) ≤ mergeStartDiag m nt t2 := by
        rw [mergeEndDiag_eq_next]
        exact mergeStartDiag_mono m nt _ _ (by omega)
      have hsd : d < mergeEndDiag m nt (d / mergeIpt m nt) := by
        unfold mergeEndDiag mergeStartDiag
        have h1 := Nat.div_add_mod d (mergeIpt m nt)
        have h2 := Nat.mod_lt d (show 0 < mergeIpt m nt by omega)
        omega
      omega

theorem nzEndY_eq_next (m : CsrMatrix) (nt t : ℕ) :
    nzEndY m nt t = nzStartY m nt (t + 1) := by
  unfold nzEndY nzStartY
  have h : nzIpt m nt * (t + 1) = nzIpt m nt * t + nzIpt m nt :=
    Nat.mul_succ _ _
  omega

theorem nzStartY_zero (m : CsrMatrix) (nt : ℕ) : nzStartY m nt 0 = 0 := by
  unfold nzStartY
  simp

theorem nzStartY_le_nnz (m : CsrMatrix) (nt t : ℕ) :
    nzStartY m nt t ≤ m.num_nonzeros := by
  unfold nzStartY
  omega

theorem nzEndY_le_nnz (m : CsrMatrix) (nt t : ℕ) :
    nzEndY m nt t ≤ m.num_nonzeros := by
  unfold nzEndY
  omega

theorem nzStartY_mono (m : CsrMatrix) (nt t t2 : ℕ) (h : t ≤ t2) :
    nzStartY m nt t ≤ nzStartY m nt t2 := by
  unfold nzStartY
  have := Nat.mul_le_mul_left (nzIpt m nt) h
  omega

theorem nzStartY_last (m : CsrMatrix) (nt : ℕ) (hnt : 1 ≤ nt) :
    nzStartY m nt nt = m.num_nonzeros := by
  unfold nzStartY
  have := ceil_div_mul_ge m.num_nonzeros nt hnt
  unfold nzIpt at *
  omega

theorem nzY_partition (m : CsrMatrix) (nt : ℕ) (hnt : 1 ≤ nt) (d : ℕ)
    (hd : d < m.num_nonzeros) :
    ∃! t, t < nt ∧ nzStartY m nt t ≤ d ∧ d < nzEndY m nt t := by
  have hT : 1 ≤ m.num_nonzeros := by omega
  have hipt : 1 ≤ nzIpt m nt := by
    unfold nzIpt
    have : nt ≤ m.num_nonzeros + nt - 1 := by omega
    have := (Nat.le_div_iff_mul_le (show 0 < nt by omega)).mpr
      (show 1 * nt ≤ m.num_nonzeros + nt - 1 by omega)
    omega
  have hceil := ceil_div_mul_ge m.num_nonzeros nt hnt
  have hceil2 : m.num_nonzeros ≤ nzIpt m nt * nt := by
    unfold nzIpt
    have : ((m.num_nonzeros + nt - 1) / nt) * nt =
        nt * ((m.num_nonzeros + nt - 1) / nt) := Nat.mul_comm _ _
    omega
  refine ⟨d / nzIpt m nt, ⟨?_, ?_, ?_⟩, ?_⟩
  · have := (Nat.div_lt_iff_lt_mul (show 0 < nzIpt m nt by omega)).mpr
      (show d < nt * nzIpt m nt by
        have : nzIpt m nt * nt = nt * nzIpt m nt := Nat.mul_comm _ _
        omega)
    exact this
  · unfold nzStartY
    have h1 : (d / nzIpt m nt) * nzIpt m nt ≤ d := Nat.div_mul_le_self _ _
    have h2 : nzIpt m nt * (d / nzIpt m nt) = (d / nzIpt m nt) * nzIpt m nt :=
      Nat.mul_comm _ _
    omega
  · unfold nzEndY nzStartY
    have h1 := Nat.div_add_mod d (nzIpt m nt)
    have h2 := Nat.mod_lt d (show 0 < nzIpt m nt by omega)
    omega
  · rintro t2 ⟨ht2, hs2, he2⟩
    by_contra hne
    rcases Nat.lt_or_ge t2 (d / nzIpt m nt) with hlt | hge
    · have hchain : nzEndY m nt t2 ≤ nzStartY m nt (d / nzIpt m nt) := by
        rw [nzEndY_eq_next]
        exact nzStartY_mono m nt (t2 + 1) _ (by omega)
      have hsd : nzStartY m nt (d / nzIpt m nt) ≤ d := by
        unfold nzStartY
        have h1 : (d / nzIpt m nt) * nzIpt m nt ≤ d := Nat.div_mul_le_self _ _
        have h2 : nzIpt m nt * (d / nzIpt m nt) =
            (d / nzIpt m nt) * nzIpt m nt := Nat.mul_comm _ _
        omega
      omega
    · have hgt : d / nzIpt m nt < t2 := by omega
      have hchain : nzEndY m nt (d / nzIpt m nt) ≤ nzStartY m nt t2 := by
        rw [nzEndY_eq_next]
        exact nzStartY_mono m nt _ _ (by omega)
      have hsd : d < nzEndY m nt (d / nzIpt m nt) := by
        unfold nzEndY nzStartY
        have h1 := Nat.div_add_mod d (nzIpt m nt)
        have h2 := Nat.mod_lt d (show 0 < nzIpt m nt by omega)
        omega
      omega

theorem mono_interval_unique (g : ℕ → ℕ) (n r : ℕ)
    (hmono : ∀ t t2, t ≤ t2 → t2 ≤ n → g t ≤ g t2)
    (h0 : g 0 ≤ r) (hn : r < g n) :
    ∃! t, t < n ∧ g t ≤ r ∧ r < g (t + 1) := by
  have hex : ∃ t, t < n ∧ g t ≤ r ∧ r < g (t + 1) := by
    induction n with
    | zero => omega
    | succ n ih =>
      rcases Nat.lt_or_ge r (g n) with hlt | hge
      · obtain ⟨t, ht1, ht2, ht3⟩ := ih
          (fun t t2 htt ht2n => hmono t t2 htt (by omega)) hlt
        exact ⟨t, by omega, ht2, ht3⟩
      · exact ⟨n, by omega, hge, hn⟩
  obtain ⟨t, ht⟩ := hex
  refine ⟨t, ht, ?_⟩
  rintro t2 ⟨h1, h2, h3⟩
  obtain ⟨k1, k2, k3⟩ := ht
  by_contra hne
  rcases Nat.lt_or_ge t2 t with hlt | hge
  · have : g (t2 + 1) ≤ g t := hmono (t2 + 1) t (by omega) (by omega)
    omega
  · have : g (t + 1) ≤ g t2 := hmono (t + 1) t2 (by omega) (by omega)
    omega

theorem mergeCoordEnd_eq_next (m : CsrMatrix) (nt t : ℕ) :
    mergeCoordEnd m nt t = mergeCoord m nt (t + 1) := by
  unfold mergeCoordEnd mergeCoord
  rw [mergeEndDiag_eq_next]

theorem mergeCoord_fst_zero (m : CsrMatrix) (wf : CsrWf m) (nt : ℕ) :
    (mergeCoord m nt 0).1 = 0 := by
  unfold mergeCoord
  rw [mergeStartDiag_zero]
  obtain ⟨k1, k2, k3, k4, k5⟩ := mergeSearch_spec m wf 0 (by omega)
  omega

theorem mergeCoord_fst_last (m : CsrMatrix) (wf : CsrWf m) (nt : ℕ)
    (hnt : 1 ≤ nt) : (mergeCoord m nt nt).1 = m.num_rows := by
  unfold mergeCoord
  rw [mergeStartDiag_last m nt hnt]
  obtain ⟨k1, k2, k3, k4, k5⟩ := mergeSearch_spec m wf (mergeTotal m) (le_refl _)
  have htot : mergeTotal m = m.num_rows + m.num_nonzeros := rfl
  omega

theorem mergeCoord_fst_mono (m : CsrMatrix) (wf : CsrWf m) (nt t t2 : ℕ)
    (h : t ≤ t2) : (mergeCoord m nt t).1 ≤ (mergeCoord m nt t2).1 := by
  unfold mergeCoord
  exact mps_x_mono m wf _ _ (mergeStartDiag_le_total m nt t2)
    (mergeStartDiag_mono m nt t t2 h)

theorem merge_row_owner (m : CsrMatrix) (wf : CsrWf m) (nt : ℕ) (hnt : 1 ≤ nt)
    (r : ℕ) (hr : r < m.num_rows) :
    ∃! t, t < nt ∧ (mergeCoord m nt t).1 ≤ r ∧ r < (mergeCoordEnd m nt t).1 := by
  have hrw : ∀ t, (mergeCoordEnd m nt t).1 = (mergeCoord m nt (t + 1)).1 := by
    intro t
    rw [mergeCoordEnd_eq_next]
  simp only [hrw]
  exact mono_interval_unique (fun t => (mergeCoord m nt t).1) nt r
    (fun t t2 htt _ => mergeCoord_fst_mono m wf nt t t2 htt)
    (by simp only [mergeCoord_fst_zero m wf nt]; omega)
    (by simp only [mergeCoord_fst_last m wf nt hnt]; omega)

theorem nzEndX_eq_next (m : CsrMatrix) (nt t : ℕ) :
    nzEndX m nt t = nzStartX m nt (t + 1) := by
  unfold nzEndX nzStartX
  rw [nzEndY_eq_next]

theorem nzStartX_zero (m : CsrMatrix) (wf : CsrWf m) (nt : ℕ) :
    nzStartX m nt 0 = 0 := by
  unfold nzStartX
  rw [nzStartY_zero]
  exact rps_zero m wf

theorem nzStartX_mono (m : CsrMatrix) (wf : CsrWf m) (nt t t2 : ℕ) (h : t ≤ t2) :
    nzStartX m nt t ≤ nzStartX m nt t2 := by
  unfold nzStartX
  exact rps_x_mono m wf _ _ (nzStartY_mono m nt t t2 h)

theorem nzLastRow_spec (m : CsrMatrix) (wf : CsrWf m) (hnr : 1 ≤ m.num_rows) :
    RowPathSearch m.num_nonzeros (rowEnds m) m.num_rows < m.num_rows ∧
    m.row_offsets (RowPathSearch m.num_nonzeros (rowEnds m) m.num_rows + 1) =
      m.num_nonzeros ∧
    (∀ rr, rr < RowPathSearch m.num_nonzeros (rowEnds m) m.num_rows →
      m.row_offsets (rr + 1) < m.num_nonzeros) := by
  obtain ⟨k1, k2, k3⟩ := rowSearch_spec m wf m.num_nonzeros
  have hlast : rowEnds m (m.num_rows - 1) = m.num_nonzeros := by
    unfold rowEnds
    have : m.num_rows - 1 + 1 = m.num_rows := by omega
    rw [this]
    exact wf.2.1
  have hlt : RowPathSearch m.num_nonzeros (rowEnds m) m.num_rows < m.num_rows := by
    by_contra hcon
    have heq : RowPathSearch m.num_nonzeros (rowEnds m) m.num_rows = m.num_rows := by
      omega
    have := k2 (m.num_rows - 1) (by omega)
    omega
  refine ⟨hlt, ?_, ?_⟩
  · have h1 := k3 _ (le_refl _) hlt
    have h2 := ro_le_nnz m wf
      (RowPathSearch m.num_nonzeros (rowEnds m) m.num_rows + 1) (by omega)
    have h3 : rowEnds m (RowPathSearch m.num_nonzeros (rowEnds m) m.num_rows) =
        m.row_offsets (RowPathSearch m.num_nonzeros (rowEnds m) m.num_rows + 1) :=
      rfl
    omega
  · intro rr hrr
    have := k2 rr hrr
    have h3 : rowEnds m rr = m.row_offsets (rr + 1) := rfl
    omega

theorem nzStartX_last (m : CsrMatrix) (nt : ℕ) (hnt : 1 ≤ nt) :
    nzStartX m nt nt = RowPathSearch m.num_nonzeros (rowEnds m) m.num_rows := by
  unfold nzStartX
  rw [nzStartY_last m nt hnt]

theorem nz_row_owner (m : CsrMatrix) (wf : CsrWf m) (nt : ℕ) (hnt : 1 ≤ nt)
    (r : ℕ) (hr : r < m.num_rows) :
    (∃! t, t < nt ∧ nzStartX m nt t ≤ r ∧ r < nzEndX m nt t) ↔
      m.row_offsets (r + 1) < m.num_nonzeros := by
  obtain ⟨k1, k2, k3⟩ := rowSearch_spec m wf m.num_nonzeros
  constructor
  · rintro ⟨t, ⟨ht1, ht2, ht3⟩, _⟩
    have hlt : r < nzStartX m nt nt := by
      have := nzStartX_mono m wf nt (t + 1) nt (by omega)
      rw [nzEndX_eq_next] at ht3
      omega
    rw [nzStartX_last m nt hnt] at hlt
    have := k2 r hlt
    have h3 : rowEnds m r = m.row_offsets (r + 1) := rfl
    omega
  · intro hro
    have hlt : r < nzStartX m nt nt := by
      rw [nzStartX_last m nt hnt]
      by_contra hcon
      have := k3 r (by omega) hr
      have h3 : rowEnds m r = m.row_offsets (r + 1) := rfl
      omega
    have hrw : ∀ t, nzEndX m nt t = nzStartX m nt (t + 1) := nzEndX_eq_next m nt
    simp only [hrw]
    exact mono_interval_unique (fun t => nzStartX m nt t) nt r
      (fun t t2 htt _ => nzStartX_mono m wf nt t t2 htt)
      (by simp only [nzStartX_zero m wf nt]; omega) hlt

theorem spmvGoldAux_val (m : CsrMatrix) (x yIn : ℕ → ℚ) (alpha beta : ℚ) :
    ∀ rcnt Y r, spmvGoldAux m x yIn alpha beta rcnt Y r =
      if r < rcnt then
        beta * yIn r +
          ∑ k ∈ Finset.Ico (m.row_offsets r) (m.row_offsets (r + 1)),
            alpha * m.values k * x (m.column_indices k)
      else Y r := by
  intro rcnt
  induction rcnt with
  | zero =>
    intro Y r
    simp [spmvGoldAux]
  | succ rcnt ih =>
    intro Y r
    simp only [spmvGoldAux, Function.update_apply]
    by_cases hr : r = rcnt
    · subst hr
      simp
    · rw [if_neg hr, ih Y r]
      by_cases hlt : r < rcnt
      · rw [if_pos hlt, if_pos (by omega)]
      · rw [if_neg hlt, if_neg (by omega)]

theorem axpyLoop_val (a : ℚ) (x : ℕ → ℚ) :
    ∀ fuel i0 y j, axpyLoop a x fuel i0 y j =
      if i0 ≤ j ∧ j < i0 + fuel then y j + a * x j else y j := by
  intro fuel
  induction fuel with
  | zero =>
    intro i0 y j
    simp only [axpyLoop]
    rw [if_neg (by omega)]
  | succ fuel ih =>
    intro i0 y j
    simp only [axpyLoop]
    rw [ih]
    by_cases hj : j = i0
    · subst hj
      rw [if_neg (by omega), if_pos (by omega), Function.update_apply, if_pos rfl]
    · rw [Function.update_apply, if_neg hj]
      by_cases hin : i0 + 1 ≤ j ∧ j < i0 + 1 + fuel
      · rw [if_pos hin, if_pos (by omega)]
      · rw [if_neg hin, if_neg (by omega)]

theorem axpy2Loop_val (a : ℚ) (x : ℕ → ℚ) :
    ∀ fuel i0 y j, axpy2Loop a x fuel i0 y j =
      if i0 ≤ j ∧ j < i0 + fuel then a * x j else y j := by
  intro fuel
  induction fuel with
  | zero =>
    intro i0 y j
    simp only [axpy2Loop]
    rw [if_neg (by omega)]
  | succ fuel ih =>
    intro i0 y j
    simp only [axpy2Loop]
    rw [ih]
    by_cases hj : j = i0
    · subst hj
      rw [if_neg (by omega), if_pos (by omega), Function.update_apply, if_pos rfl]
    · rw [Function.update_apply, if_neg hj]
      by_cases hin : i0 + 1 ≤ j ∧ j < i0 + 1 + fuel
      · rw [if_pos hin, if_pos (by omega)]
      · rw [if_neg hin, if_neg (by omega)]

theorem mergeCoord_snd_eq (m : CsrMatrix) (wf : CsrWf m) (nt t : ℕ) :
    (mergeCoord m nt t).2 = mergeStartDiag m nt t - (mergeCoord m nt t).1 := by
  obtain ⟨k1, k2, k3, k4, k5⟩ := mergeSearch_spec m wf (mergeStartDiag m nt t)
    (mergeStartDiag_le_total m nt t)
  exact k5

theorem mergeCarry_inRow (m : CsrMatrix) (wf : CsrWf m) (xrm : ℕ → ℚ)
    (nv nt t : ℕ) :
    m.row_offsets (mergeCarryRow m nt t) ≤ mergeYcEnd m xrm nv nt t ∧
    (mergeCarryRow m nt t < m.num_rows →
      (mergeCoordEnd m nt t).2 ≤ m.row_offsets (mergeCarryRow m nt t + 1)) := by
  have hsx_le : (mergeCoord m nt t).1 ≤ (mergeCoordEnd m nt t).1 := by
    rw [mergeCoordEnd_eq_next]
    exact mergeCoord_fst_mono m wf nt t (t + 1) (by omega)
  constructor
  · unfold mergeYcEnd mergeCarryRow
    rcases Nat.eq_or_lt_of_le hsx_le with heq | hlt
    · have hf0 : (mergeCoordEnd m nt t).1 - (mergeCoord m nt t).1 = 0 := by omega
      rw [hf0]
      simp only [consumeRows]
      rw [← heq]
      have h1 := mps_lower m wf (mergeStartDiag m nt t)
        (mergeStartDiag_le_total m nt t)
      have h2 := mergeCoord_snd_eq m wf nt t
      unfold mergeCoord at *
      omega
    · have hge := consumeRows_snd_ge_rend (rowEnds m) (spmmG m xrm nv) nv
        ((mergeCoordEnd m nt t).1 - (mergeCoord m nt t).1)
        (mergeCoord m nt t).1 (mergeCoord m nt t).2 (fun _ => 0) (by omega)
      have harg : (mergeCoord m nt t).1 +
          ((mergeCoordEnd m nt t).1 - (mergeCoord m nt t).1) - 1 =
          (mergeCoordEnd m nt t).1 - 1 := by omega
      rw [harg] at hge
      have hre : rowEnds m ((mergeCoordEnd m nt t).1 - 1) =
          m.row_offsets (mergeCoordEnd m nt t).1 := by
        unfold rowEnds
        congr 1
        omega
      omega
  · intro hlt
    unfold mergeCarryRow at *
    have h1 := mps_upper m wf (mergeEndDiag m nt t) (mergeEndDiag_le_total m nt t)
      (by unfold mergeCoordEnd at hlt; exact hlt)
    obtain ⟨k1, k2, k3, k4, k5⟩ := mergeSearch_spec m wf (mergeEndDiag m nt t)
      (mergeEndDiag_le_total m nt t)
    unfold mergeCoordEnd at *
    omega

theorem nzCarry_inRow (m : CsrMatrix) (wf : CsrWf m) (xrm : ℕ → ℚ)
    (nv nt t : ℕ) :
    m.row_offsets (nzCarryRow m nt t) ≤ nzYcEnd m xrm nv nt t ∧
    (nzCarryRow m nt t < m.num_rows →
      nzEndY m nt t ≤ m.row_offsets (nzCarryRow m nt t + 1)) := by
  have hsx_le : nzStartX m nt t ≤ nzEndX m nt t := by
    rw [nzEndX_eq_next]
    exact nzStartX_mono m wf nt t (t + 1) (by omega)
  obtain ⟨s1, s2, s3⟩ := rowSearch_spec m wf (nzStartY m nt t)
  obtain ⟨e1, e2, e3⟩ := rowSearch_spec m wf (nzEndY m nt t)
  constructor
  · unfold nzYcEnd nzCarryRow
    rcases Nat.eq_or_lt_of_le hsx_le with heq | hlt
    · have hf0 : nzEndX m nt t - nzStartX m nt t = 0 := by omega
      rw [hf0]
      simp only [consumeRows]
      rw [← heq]
      rcases Nat.eq_zero_or_pos (nzStartX m nt t) with h0 | h0
      · rw [h0, wf.1]
        omega
      · have hXdef : nzStartX m nt t =
            RowPathSearch (nzStartY m nt t) (rowEnds m) m.num_rows := rfl
        have := s2 (nzStartX m nt t - 1) (by omega)
        have hre : rowEnds m (nzStartX m nt t - 1) =
            m.row_offsets (nzStartX m nt t) := by
          unfold rowEnds
          congr 1
          omega
        omega
    · have hge := consumeRows_snd_ge_rend (rowEnds m) (spmmG m xrm nv) nv
        (nzEndX m nt t - nzStartX m nt t)
        (nzStartX m nt t) (nzStartY m nt t) (fun _ => 0) (by omega)
      have harg : nzStartX m nt t + (nzEndX m nt t - nzStartX m nt t) - 1 =
          nzEndX m nt t - 1 := by omega
      rw [harg] at hge
      have hre : rowEnds m (nzEndX m nt t - 1) =
          m.row_offsets (nzEndX m nt t) := by
        unfold rowEnds
        congr 1
        omega
      omega
  · intro hlt
    unfold nzCarryRow at *
    have := e3 (nzEndX m nt t) (by unfold nzEndX; exact le_refl _) hlt
    have hre : rowEnds m (nzEndX m nt t) =
        m.row_offsets (nzEndX m nt t + 1) := rfl
    omega

/-- C9: both load-balanced kernels store per-thread carry-outs in fixed-size
arrays of length 256 indexed by thread id; under the precondition
`num_threads ≤ 256` every access index of `row_carry_out` / `value_carry_out`
(parallel-loop writes at `tid < num_threads`, fix-up reads at
`tid < num_threads - 1`) is within bounds. -/
theorem carry_arrays_within_bounds (nt : ℕ) (hnt : nt ≤ 256) :
    ∀ j ∈ carryAccessIdx nt, j < 256 := by
  intro j hj
  unfold carryAccessIdx at hj
  rw [Finset.mem_union, Finset.mem_range, Finset.mem_range] at hj
  omega

theorem carry_arrays_within_bounds_witness :
    17 ≤ 256 ∧ ∀ j ∈ carryAccessIdx 17, j < 256 :=
  ⟨by decide, carry_arrays_within_bounds 17 (by decide)⟩

/-- C10: for every `i < size`, `axpy_2` overwrites `y[i]` with `a * x[i]`
while `axpy_` adds `a * x[i]` into `y[i]`; slots at or beyond `size` are left
unchanged by both, so the two functions are distinct operations despite the
shared name. -/
theorem axpy_pair_spec (size : ℕ) (a : ℚ) (x y : ℕ → ℚ) (j : ℕ)
    (hj : j < size) :
    axpy_2 size a x y j = a * x j ∧
    axpy_ size a x y j = y j + a * x j ∧
    (∀ j2, size ≤ j2 → axpy_2 size a x y j2 = y j2 ∧ axpy_ size a x y j2 = y j2) := by
  refine ⟨?_, ?_, ?_⟩
  · unfold axpy_2
    rw [axpy2Loop_val, if_pos (by omega)]
  · unfold axpy_
    rw [axpyLoop_val, if_pos (by omega)]
  · intro j2 hj2
    constructor
    · unfold axpy_2
      rw [axpy2Loop_val, if_neg (by omega)]
    · unfold axpy_
      rw [axpyLoop_val, if_neg (by omega)]

theorem axpy_pair_spec_witness :
    0 < 2 ∧
    (axpy_2 2 3 oneVec zeroVec 0 = 3 * oneVec 0 ∧
     axpy_ 2 3 oneVec zeroVec 0 = zeroVec 0 + 3 * oneVec 0 ∧
     (∀ j2, 2 ≤ j2 → axpy_2 2 3 oneVec zeroVec j2 = zeroVec j2 ∧
       axpy_ 2 3 oneVec zeroVec j2 = zeroVec j2)) :=
  ⟨by decide, axpy_pair_spec 2 3 oneVec zeroVec 0 (by decide)⟩

/-- C7: `SpmvGold` writes, for each row `r < num_rows`,
`Y_out[r] = beta * Y_in[r] + alpha * (sum over the row's offset range of
values[k] * X[column_indices[k]])`, and leaves every other slot of the single
output vector unchanged. -/
theorem spmvGold_spec (m : CsrMatrix) (x yIn yOut0 : ℕ → ℚ) (alpha beta : ℚ)
    (r : ℕ) :
    (r < m.num_rows →
      spmvGold m x yIn yOut0 alpha beta r =
        beta * yIn r + alpha *
          ∑ k ∈ Finset.Ico (m.row_offsets r) (m.row_offsets (r + 1)),
            m.values k * x (m.column_indices k)) ∧
    (m.num_rows ≤ r → spmvGold m x yIn yOut0 alpha beta r = yOut0 r) := by
  constructor
  · intro hr
    unfold spmvGold
    rw [spmvGoldAux_val, if_pos hr, Finset.mul_sum]
    congr 1
    exact Finset.sum_congr rfl (fun k _ => by ring)
  · intro hr
    unfold spmvGold
    rw [spmvGoldAux_val, if_neg (by omega)]

theorem spmvGold_spec_witness :
    1 < mEx1.num_rows ∧
    spmvGold mEx1 oneVec oneVec zeroVec 1 0 1 =
      0 * oneVec 1 + 1 *
        ∑ k ∈ Finset.Ico (mEx1.row_offsets 1) (mEx1.row_offsets (1 + 1)),
          mEx1.values k * oneVec (mEx1.column_indices k) :=
  ⟨by decide, (spmvGold_spec mEx1 oneVec oneVec zeroVec 1 0 1).1 (by decide)⟩

/-- C5: the per-thread diagonal ranges `[start_diagonal, end_diagonal)` of the
merge-path kernel partition `[0, num_rows + num_nonzeros)` with no gaps and no
overlaps, and the per-thread nonzero ranges `[thread_coord.y, thread_coord_end.y)`
of the nonzero-split kernel (items_per_thread = ceil(num_nonzeros/num_threads))
partition `[0, num_nonzeros)`. -/
theorem thread_ranges_partition (m : CsrMatrix) (nt : ℕ) (hnt : 1 ≤ nt) :
    (∀ d, d < mergeTotal m →
      ∃! t, t < nt ∧ mergeStartDiag m nt t ≤ d ∧ d < mergeEndDiag m nt t) ∧
    (∀ q, q < m.num_nonzeros →
      ∃! t, t < nt ∧ nzStartY m nt t ≤ q ∧ q < nzEndY m nt t) :=
  ⟨fun d hd => mergeDiag_partition m nt hnt d hd,
   fun q hq => nzY_partition m nt hnt q hq⟩

theorem thread_ranges_partition_witness :
    1 ≤ 3 ∧
    ((∀ d, d < mergeTotal mEx1 →
      ∃! t, t < 3 ∧ mergeStartDiag mEx1 3 t ≤ d ∧ d < mergeEndDiag mEx1 3 t) ∧
    (∀ q, q < mEx1.num_nonzeros →
      ∃! t, t < 3 ∧ nzStartY mEx1 3 t ≤ q ∧ q < nzEndY mEx1 3 t)) :=
  ⟨by decide, thread_ranges_partition mEx1 3 (by decide)⟩

/-- C2 counterexample: on a 2-row matrix with `row_offsets = [0,1,2]` and one
thread, the nonzero-split kernel's end coordinate for the last thread is row 1,
not `num_rows = 2`, so the claim that both kernels end the last thread at
`num_rows` is false. -/
theorem nz_last_end_not_numRows :
    0 < mEx1.num_nonzeros ∧ nzEndX mEx1 1 (1 - 1) = 1 ∧
    nzEndX mEx1 1 (1 - 1) ≠ mEx1.num_rows := by
  decide

/-- C2 (amended): for every well-formed CSR matrix with `num_nonzeros > 0` and
`num_threads ≥ 1`, the merge-path kernel's last-thread end coordinate has
`x = num_rows`; but the nonzero-split kernel's last-thread end nonzero index is
`num_nonzeros` while its end row `x` is the smallest row whose end offset
equals `num_nonzeros` — strictly less than `num_rows` — so the fix-up's
unconditional skip of the last thread's carry-out drops that row's
accumulated contribution. -/
theorem lastThread_end_coordinate (m : CsrMatrix) (wf : CsrWf m) (nt : ℕ)
    (hnt : 1 ≤ nt) (hnnz : 0 < m.num_nonzeros) :
    (mergeCoordEnd m nt (nt - 1)).1 = m.num_rows ∧
    nzEndY m nt (nt - 1) = m.num_nonzeros ∧
    nzEndX m nt (nt - 1) < m.num_rows ∧
    m.row_offsets (nzEndX m nt (nt - 1) + 1) = m.num_nonzeros ∧
    (∀ rr, rr < nzEndX m nt (nt - 1) →
      m.row_offsets (rr + 1) < m.num_nonzeros) := by
  have hnr : 1 ≤ m.num_rows := by
    by_contra hcon
    have h0 : m.num_rows = 0 := by omega
    have := wf.2.1
    rw [h0, wf.1] at this
    omega
  have hsucc : nt - 1 + 1 = nt := by omega
  have hmerge : (mergeCoordEnd m nt (nt - 1)).1 = m.num_rows := by
    rw [mergeCoordEnd_eq_next, hsucc]
    exact mergeCoord_fst_last m wf nt hnt
  have hey : nzEndY m nt (nt - 1) = m.num_nonzeros := by
    rw [nzEndY_eq_next, hsucc]
    exact nzStartY_last m nt hnt
  have hex : nzEndX m nt (nt - 1) =
      RowPathSearch m.num_nonzeros (rowEnds m) m.num_rows := by
    unfold nzEndX
    rw [hey]
  obtain ⟨l1, l2, l3⟩ := nzLastRow_spec m wf hnr
  rw [hmerge, hey, hex]
  exact ⟨rfl, rfl, l1, l2, l3⟩

theorem lastThread_end_coordinate_witness :
    (CsrWf mEx1 ∧ 1 ≤ 1 ∧ 0 < mEx1.num_nonzeros) ∧
    ((mergeCoordEnd mEx1 1 (1 - 1)).1 = mEx1.num_rows ∧
     nzEndY mEx1 1 (1 - 1) = mEx1.num_nonzeros ∧
     nzEndX mEx1 1 (1 - 1) < mEx1.num_rows ∧
     mEx1.row_offsets (nzEndX mEx1 1 (1 - 1) + 1) = mEx1.num_nonzeros ∧
     (∀ rr, rr < nzEndX mEx1 1 (1 - 1) →
       mEx1.row_offsets (rr + 1) < mEx1.num_nonzeros)) :=
  ⟨⟨by decide, by decide, by decide⟩,
   lastThread_end_coordinate mEx1 (by decide) 1 (by decide) (by decide)⟩

theorem mono_of_adj (f : ℕ → ℕ) (n : ℕ) (h : ∀ i, i < n → f i ≤ f (i + 1)) :
    ∀ i j, i ≤ j → j ≤ n → f i ≤ f j := by
  intro i j hij hj
  induction j with
  | zero =>
    have h0 : i = 0 := by omega
    subst h0
    exact le_refl _
  | succ k ih =>
    rcases Nat.eq_or_lt_of_le hij with heq | hlt
    · subst heq
      exact le_refl _
    · exact le_trans (ih (by omega) (by omega)) (h k (by omega))

/-- C6 counterexample: with `row_offsets = [0,2,3]` (row-end list `[2,3]`),
`b_len = 3` and diagonal `d = 2`, `MergePathSearch` returns `(0, 2)`, and the
returned split does not satisfy the claimed strict inequality
`row_offsets[x+1] > d - x` (it satisfies it only non-strictly: `2 ≥ 2`). -/
theorem mergePathSearch_strict_split_fails :
    MergePathSearch 2 aEx6 2 3 = (0, 2) ∧ roEx6 0 ≤ 2 - 0 ∧
    ¬ (roEx6 (0 + 1) > 2 - 0) := by
  decide

/-- C6 (amended): for a non-decreasing row-offset sequence with
`ro 0 = 0` and `ro r ≤ b_len` on the index range, and a diagonal
`d ≤ a_len + b_len`, `MergePathSearch` over the row-end list `ro (x+1)` and
the identity sequence returns `(x, y)` with `x + y = d`, `x` in the clamped
interval `[d - b_len, min d a_len]`, `ro x ≤ d - x`, and — with `≥` in place
of the claimed strict `>`, and trivially at the clamp's upper end —
`x = min d a_len` or `ro (x+1) ≥ d - x`; `x` is the unique index in the
clamped range satisfying these boundary inequalities. -/
theorem mergePathSearch_split_spec (ro : ℕ → ℕ) (a_len b_len d : ℕ)
    (h0 : ro 0 = 0)
    (hadj : ∀ i, i ≤ a_len → ro i ≤ ro (i + 1))
    (hb : ∀ r, r ≤ a_len → ro r ≤ b_len)
    (hd : d ≤ a_len + b_len) :
    (MergePathSearch d (fun x => ro (x + 1)) a_len b_len).1 +
      (MergePathSearch d (fun x => ro (x + 1)) a_len b_len).2 = d ∧
    d - b_len ≤ (MergePathSearch d (fun x => ro (x + 1)) a_len b_len).1 ∧
    (MergePathSearch d (fun x => ro (x + 1)) a_len b_len).1 ≤ min d a_len ∧
    ro (MergePathSearch d (fun x => ro (x + 1)) a_len b_len).1 ≤
      d - (MergePathSearch d (fun x => ro (x + 1)) a_len b_len).1 ∧
    ((MergePathSearch d (fun x => ro (x + 1)) a_len b_len).1 = min d a_len ∨
      d - (MergePathSearch d (fun x => ro (x + 1)) a_len b_len).1 ≤
        ro ((MergePathSearch d (fun x => ro (x + 1)) a_len b_len).1 + 1)) ∧
    (∀ x, x ≤ min d a_len → ro x ≤ d - x →
      (x = min d a_len ∨ d - x ≤ ro (x + 1)) →
      x = (MergePathSearch d (fun x => ro (x + 1)) a_len b_len).1) := by
  have hmono := mono_of_adj ro (a_len + 1) (fun i hi => hadj i (by omega))
  have hP : ∀ x y, x ≤ y → y < min d a_len →
      ¬ (ro (x + 1) ≤ d - x - 1) → ¬ (ro (y + 1) ≤ d - y - 1) := by
    intro x y hxy hy hx hcon
    have : ro (x + 1) ≤ ro (y + 1) := hmono (x + 1) (y + 1) (by omega) (by omega)
    exact hx (by omega)
  obtain ⟨k1, k2, k3, k4⟩ := mpsLoopF_spec (fun x => ro (x + 1)) d
    (min d a_len) hP (min d a_len - (d - b_len)) (d - b_len) (min d a_len)
    (by omega) (le_refl _) (le_refl _)
  have hfst : (MergePathSearch d (fun x => ro (x + 1)) a_len b_len).1 =
      mpsLoopF (fun x => ro (x + 1)) d (min d a_len - (d - b_len))
        (d - b_len) (min d a_len) := by
    simp only [MergePathSearch]
    omega
  have hsnd : (MergePathSearch d (fun x => ro (x + 1)) a_len b_len).2 =
      d - mpsLoopF (fun x => ro (x + 1)) d (min d a_len - (d - b_len))
        (d - b_len) (min d a_len) := by
    simp only [MergePathSearch]
  rw [hfst, hsnd]
  set rr := mpsLoopF (fun x => ro (x + 1)) d (min d a_len - (d - b_len))
    (d - b_len) (min d a_len) with hrr
  have hlower : ro rr ≤ d - rr := by
    by_cases hrl : d - b_len < rr
    · have h3 := k3 (rr - 1) (by omega) (by omega)
      have : rr - 1 + 1 = rr := by omega
      rw [this] at h3
      omega
    · have hre : rr = d - b_len := by omega
      by_cases hdb : d ≤ b_len
      · have : rr = 0 := by omega
        rw [this, h0]
        omega
      · have := hb rr (by omega)
        omega
  have hupper : rr = min d a_len ∨ d - rr ≤ ro (rr + 1) := by
    rcases Nat.eq_or_lt_of_le k2 with heq | hlt
    · exact Or.inl heq
    · right
      have := k4 rr (le_refl _) hlt
      omega
  refine ⟨by omega, k1, k2, hlower, hupper, ?_⟩
  intro x hx hx1 hx2
  by_contra hne
  rcases Nat.lt_or_ge x rr with hlt | hge
  · have hx2' : d - x ≤ ro (x + 1) := by
      rcases hx2 with he | h2
      · omega
      · exact h2
    by_cases hxlo : d - b_len ≤ x
    · have := k3 x hxlo hlt
      omega
    · have hxb := hb (x + 1) (by omega)
      omega
  · have hgt : rr < x := by omega
    have h4 := k4 rr (le_refl _) (by omega)
    have hmx : ro (rr + 1) ≤ ro x := hmono (rr + 1) x (by omega) (by omega)
    omega

theorem mergePathSearch_split_spec_witness :
    (roEx6 0 = 0 ∧ (∀ i, i ≤ 2 → roEx6 i ≤ roEx6 (i + 1)) ∧
     (∀ r, r ≤ 2 → roEx6 r ≤ 3) ∧ 2 ≤ 2 + 3) ∧
    ((MergePathSearch 2 (fun x => roEx6 (x + 1)) 2 3).1 +
      (MergePathSearch 2 (fun x => roEx6 (x + 1)) 2 3).2 = 2 ∧
    2 - 3 ≤ (MergePathSearch 2 (fun x => roEx6 (x + 1)) 2 3).1 ∧
    (MergePathSearch 2 (fun x => roEx6 (x + 1)) 2 3).1 ≤ min 2 2 ∧
    roEx6 (MergePathSearch 2 (fun x => roEx6 (x + 1)) 2 3).1 ≤
      2 - (MergePathSearch 2 (fun x => roEx6 (x + 1)) 2 3).1 ∧
    ((MergePathSearch 2 (fun x => roEx6 (x + 1)) 2 3).1 = min 2 2 ∨
      2 - (MergePathSearch 2 (fun x => roEx6 (x + 1)) 2 3).1 ≤
        roEx6 ((MergePathSearch 2 (fun x => roEx6 (x + 1)) 2 3).1 + 1)) ∧
    (∀ x, x ≤ min 2 2 → roEx6 x ≤ 2 - x →
      (x = min 2 2 ∨ 2 - x ≤ roEx6 (x + 1)) →
      x = (MergePathSearch 2 (fun x => roEx6 (x + 1)) 2 3).1)) :=
  ⟨⟨by decide, by decide, by decide, by decide⟩,
   mergePathSearch_split_spec roEx6 2 3 2 (by decide) (by decide) (by decide)
     (by decide)⟩

/-- C3: in both load-balanced kernels each thread records as carry-out the
pair (end-coordinate row id, running total over its final partially-consumed
row, one entry per vector column); after the parallel phase the sequential
fix-up visits exactly threads `0 .. num_threads - 2` and adds each visited
thread's recorded total into `Y` at its recorded row (when `< num_rows`)
exactly once, so the final buffer is the parallel-phase buffer plus the sum of
the matching carry-outs; the last thread's carry-out is never applied. -/
theorem carryOut_fixup_spec (m : CsrMatrix) (wf : CsrWf m) (xrm : ℕ → ℚ)
    (nv nt : ℕ) (Y0 : ℕ → ℚ) (r i t : ℕ) (hi : i < nv) (hr : r < m.num_rows) :
    (ompMergeCsrmm nt m xrm nv Y0 (r * nv + i) =
      mergeParallelY m xrm nv nt nt Y0 (r * nv + i) +
        ∑ t2 ∈ (Finset.range (nt - 1)).filter
          (fun t2 => mergeCarryRow m nt t2 = r), mergeCarryVal m xrm nv nt t2 i) ∧
    (ompNonzeroSplitCsrmm nt m xrm nv Y0 (r * nv + i) =
      nzParallelY m xrm nv nt nt Y0 (r * nv + i) +
        ∑ t2 ∈ (Finset.range (nt - 1)).filter
          (fun t2 => nzCarryRow m nt t2 = r), nzCarryVal m xrm nv nt t2 i) ∧
    (mergeCarryRow m nt t = (mergeCoordEnd m nt t).1 ∧
      mergeCarryVal m xrm nv nt t i =
        ∑ k ∈ Finset.Ico (mergeYcEnd m xrm nv nt t) (mergeCoordEnd m nt t).2,
          spmmG m xrm nv k i ∧
      m.row_offsets (mergeCarryRow m nt t) ≤ mergeYcEnd m xrm nv nt t ∧
      (mergeCarryRow m nt t < m.num_rows →
        (mergeCoordEnd m nt t).2 ≤ m.row_offsets (mergeCarryRow m nt t + 1))) ∧
    (nzCarryRow m nt t = nzEndX m nt t ∧
      nzCarryVal m xrm nv nt t i =
        ∑ k ∈ Finset.Ico (nzYcEnd m xrm nv nt t) (nzEndY m nt t),
          spmmG m xrm nv k i ∧
      m.row_offsets (nzCarryRow m nt t) ≤ nzYcEnd m xrm nv nt t ∧
      (nzCarryRow m nt t < m.num_rows →
        nzEndY m nt t ≤ m.row_offsets (nzCarryRow m nt t + 1))) := by
  refine ⟨?_, ?_, ?_, ?_⟩
  · exact carryFixup_val m.num_rows nv (mergeCarryRow m nt)
      (mergeCarryVal m xrm nv nt) (nt - 1)
      (mergeParallelY m xrm nv nt nt Y0) r i hi hr
  · exact carryFixup_val m.num_rows nv (nzCarryRow m nt)
      (nzCarryVal m xrm nv nt) (nt - 1)
      (nzParallelY m xrm nv nt nt Y0) r i hi hr
  · exact ⟨rfl, rfl, (mergeCarry_inRow m wf xrm nv nt t).1,
      (mergeCarry_inRow m wf xrm nv nt t).2⟩
  · exact ⟨rfl, rfl, (nzCarry_inRow m wf xrm nv nt t).1,
      (nzCarry_inRow m wf xrm nv nt t).2⟩

theorem carryOut_fixup_spec_witness :
    (CsrWf mEx1 ∧ 0 < 1 ∧ 0 < mEx1.num_rows) ∧
    ompMergeCsrmm 2 mEx1 oneVec 1 zeroVec (0 * 1 + 0) =
      mergeParallelY mEx1 oneVec 1 2 2 zeroVec (0 * 1 + 0) +
        ∑ t2 ∈ (Finset.range (2 - 1)).filter
          (fun t2 => mergeCarryRow mEx1 2 t2 = 0),
          mergeCarryVal mEx1 oneVec 1 2 t2 0 :=
  ⟨⟨by decide, by decide, by decide⟩,
   (carryOut_fixup_spec mEx1 (by decide) oneVec 1 2 zeroVec 0 0 0
     (by decide) (by decide)).1⟩

/-- C4 counterexample: on a single-row matrix with five nonzeros and three
threads, the merge-path kernel has threads 0 and 1 both recording carry-outs
for row 0 (both applied by the fix-up) while thread 2 owns the authoritative
overwrite, so "at most one other thread contributes an additive carry-out to
that row" is false. -/
theorem merge_two_carry_contributors :
    (mergeCoord mEx2 3 2).1 = 0 ∧ (mergeCoordEnd mEx2 3 2).1 = 1 ∧
    mergeCarryRow mEx2 3 0 = 0 ∧ mergeCarryRow mEx2 3 1 = 0 ∧
    ((Finset.range (3 - 1)).filter
      (fun t => mergeCarryRow mEx2 3 t = 0)).card = 2 ∧
    ¬ ((Finset.range (3 - 1)).filter
      (fun t => mergeCarryRow mEx2 3 t = 0)).card ≤ 1 := by
  decide

/-- C4 (amended): in the merge-path kernel every row `r < num_rows` receives
its authoritative overwrite from exactly one thread; in the nonzero-split
kernel exactly the rows with `row_offsets[r+1] < num_nonzeros` do; one or
more other threads may contribute additive carry-outs to a row, and the
fix-up adds each visited thread's carry-out exactly once (the final value is
the parallel-phase value plus the sum over matching visited threads). -/
theorem row_ownership (m : CsrMatrix) (wf : CsrWf m) (xrm : ℕ → ℚ)
    (nv nt : ℕ) (Y0 : ℕ → ℚ) (r i : ℕ) (hnt : 1 ≤ nt) (hi : i < nv)
    (hr : r < m.num_rows) :
    (∃! t, t < nt ∧ (mergeCoord m nt t).1 ≤ r ∧ r < (mergeCoordEnd m nt t).1) ∧
    ((∃! t, t < nt ∧ nzStartX m nt t ≤ r ∧ r < nzEndX m nt t) ↔
      m.row_offsets (r + 1) < m.num_nonzeros) ∧
    (ompMergeCsrmm nt m xrm nv Y0 (r * nv + i) =
      mergeParallelY m xrm nv nt nt Y0 (r * nv + i) +
        ∑ t2 ∈ (Finset.range (nt - 1)).filter
          (fun t2 => mergeCarryRow m nt t2 = r), mergeCarryVal m xrm nv nt t2 i) ∧
    (ompNonzeroSplitCsrmm nt m xrm nv Y0 (r * nv + i) =
      nzParallelY m xrm nv nt nt Y0 (r * nv + i) +
        ∑ t2 ∈ (Finset.range (nt - 1)).filter
          (fun t2 => nzCarryRow m nt t2 = r), nzCarryVal m xrm nv nt t2 i) := by
  refine ⟨merge_row_owner m wf nt hnt r hr, nz_row_owner m wf nt hnt r hr, ?_, ?_⟩
  · exact carryFixup_val m.num_rows nv (mergeCarryRow m nt)
      (mergeCarryVal m xrm nv nt) (nt - 1)
      (mergeParallelY m xrm nv nt nt Y0) r i hi hr
  · exact carryFixup_val m.num_rows nv (nzCarryRow m nt)
      (nzCarryVal m xrm nv nt) (nt - 1)
      (nzParallelY m xrm nv nt nt Y0) r i hi hr

theorem row_ownership_witness :
    (CsrWf mEx2 ∧ 1 ≤ 3 ∧ 0 < 1 ∧ 0 < mEx2.num_rows) ∧
    (∃! t, t < 3 ∧ (mergeCoord mEx2 3 t).1 ≤ 0 ∧ 0 < (mergeCoordEnd mEx2 3 t).1) :=
  ⟨⟨by decide, by decide, by decide, by decide⟩,
   (row_ownership mEx2 (by decide) oneVec 1 3 zeroVec 0 0 (by decide)
     (by decide) (by decide)).1⟩

/-- C1 failing input: on the 2-row matrix with `row_offsets = [0,1,2]`, unit
values, all-ones dense input (first column), one thread, and output buffer
initialised to zero, the nonzero-split kernel leaves row 1 (slot
`1 * num_vectors + 0`) untouched at 0 while the serial reference computes 1
(`alpha = 1`, `beta = 0`), a divergence far beyond the 1e-6 tolerance: the
last thread's carry-out holds the whole of row 1 and the fix-up skips it. -/
theorem nzsplit_drops_last_row :
    ompNonzeroSplitCsrmm 1 mEx1 oneVec 1 zeroVec (1 * 1 + 0) = 0 ∧
    spmvGold mEx1 oneVec oneVec zeroVec 1 0 1 = 1 ∧
    ¬ (|ompNonzeroSplitCsrmm 1 mEx1 oneVec 1 zeroVec (1 * 1 + 0) -
        spmvGold mEx1 oneVec oneVec zeroVec 1 0 1| ≤ 1 / 1000000) := by
  have e1 : ompNonzeroSplitCsrmm 1 mEx1 oneVec 1 zeroVec (1 * 1 + 0) = 0 := by
    decide
  have e2 : spmvGold mEx1 oneVec oneVec zeroVec 1 0 1 = 1 := by
    unfold spmvGold
    rw [spmvGoldAux_val, if_pos (by decide : (1 : ℕ) < mEx1.num_rows)]
    rw [show mEx1.row_offsets 1 = 1 from rfl,
      show mEx1.row_offsets (1 + 1) = 2 from rfl]
    rw [(by decide : Finset.Ico (1 : ℕ) 2 = {1}), Finset.sum_singleton]
    norm_num [mEx1, oneVec]
  refine ⟨e1, e2, ?_⟩
  rw [e1, e2]
  norm_num

theorem spmmTRows_val_rm (m : CsrMatrix) (xrm : ℕ → ℚ) (nv : ℕ) :
    ∀ rcnt Y r i, i < nv → r < rcnt →
      spmmTRows m xrm nv true rcnt Y (r * nv + i) =
        ∑ k ∈ Finset.Ico (m.row_offsets r) (m.row_offsets (r + 1)),
          spmmG m xrm nv k i := by
  intro rcnt
  induction rcnt with
  | zero => intro Y r i _ h; omega
  | succ rcnt ih =>
    intro Y r i hi hr
    simp only [spmmTRows, if_true]
    rcases Nat.eq_or_lt_of_le (Nat.lt_succ_iff.mp hr) with heq | hlt
    · subst heq
      rw [writeSeg_mem _ _ _ _ _ (by omega) (by omega)]
      have : r * nv + i - r * nv = i := by omega
      rw [this]
    · rw [writeSeg_notMem _ _ _ _ _ (by
        rw [slot_cases r rcnt i nv hi]
        omega)]
      exact ih Y r i hi hlt

/-- C8 failing input: a 1-by-2 matrix with unit values on both columns and
logical dense vector `[5,7]` (one vector column, so the row-major and
column-major buffer contents coincide).  With row-major input the row-parallel
kernel computes 12; with column-major input the transposing prepass runs with
its uninitialised thread-private cursor `xt_index` holding 1 (a legitimate
indeterminate value), shifting every transposed element one slot, and the
kernel computes 5 — the layout combinations do not yield identical results. -/
theorem spmmT_layout_mismatch :
    ompCsrSpmmT 1 mEx8 xEx8 xEx8 1 true true 0 zeroVec 0 = 12 ∧
    ompCsrSpmmT 1 mEx8 xEx8 zeroVec 1 false true 1 zeroVec 0 = 5 ∧
    ompCsrSpmmT 1 mEx8 xEx8 xEx8 1 true true 0 zeroVec 0 ≠
      ompCsrSpmmT 1 mEx8 xEx8 zeroVec 1 false true 1 zeroVec 0 := by
  have e1 : ompCsrSpmmT 1 mEx8 xEx8 xEx8 1 true true 0 zeroVec 0 = 12 := by
    have h : ompCsrSpmmT 1 mEx8 xEx8 xEx8 1 true true 0 zeroVec =
        spmmTRows mEx8 xEx8 1 true mEx8.num_rows zeroVec := rfl
    rw [h]
    have h2 := spmmTRows_val_rm mEx8 xEx8 1 mEx8.num_rows zeroVec 0 0
      (by decide) (by decide)
    rw [show (0 : ℕ) * 1 + 0 = 0 from rfl] at h2
    rw [h2]
    rw [show mEx8.row_offsets 0 = 0 from rfl,
      show mEx8.row_offsets (0 + 1) = 2 from rfl]
    rw [(by decide : Finset.Ico (0 : ℕ) 2 = {0, 1})]
    rw [Finset.sum_insert (by decide), Finset.sum_singleton]
    norm_num [spmmG, mEx8, xEx8]
  have e2 : ompCsrSpmmT 1 mEx8 xEx8 zeroVec 1 false true 1 zeroVec 0 = 5 := by
    have h : ompCsrSpmmT 1 mEx8 xEx8 zeroVec 1 false true 1 zeroVec =
        spmmTRows mEx8 (transposeX xEx8 mEx8.num_cols 1 1 zeroVec) 1 true
          mEx8.num_rows zeroVec := rfl
    rw [h]
    have h2 := spmmTRows_val_rm mEx8 (transposeX xEx8 mEx8.num_cols 1 1 zeroVec)
      1 mEx8.num_rows zeroVec 0 0 (by decide) (by decide)
    rw [show (0 : ℕ) * 1 + 0 = 0 from rfl] at h2
    rw [h2]
    rw [show mEx8.row_offsets 0 = 0 from rfl,
      show mEx8.row_offsets (0 + 1) = 2 from rfl]
    rw [(by decide : Finset.Ico (0 : ℕ) 2 = {0, 1})]
    rw [Finset.sum_insert (by decide), Finset.sum_singleton]
    have hx0 : transposeX xEx8 mEx8.num_cols 1 1 zeroVec 0 = 0 := by decide
    have hx1 : transposeX xEx8 mEx8.num_cols 1 1 zeroVec 1 = 5 := by decide
    simp only [spmmG]
    rw [show mEx8.column_indices 0 * 1 + 0 = 0 from rfl,
      show mEx8.column_indices 1 * 1 + 0 = 1 from rfl]
    rw [hx0, hx1]
    norm_num [mEx8]
  refine ⟨e1, e2, ?_⟩
  rw [e1, e2]
  norm_num

theorem mps_y_mono (m : CsrMatrix) (wf : CsrWf m) (d d' : ℕ)
    (hd' : d' ≤ mergeTotal m) (hdd : d ≤ d') :
    (MergePathSearch d (rowEnds m) m.num_rows m.num_nonzeros).2 ≤
      (MergePathSearch d' (rowEnds m) m.num_rows m.num_nonzeros).2 := by
  have hd : d ≤ mergeTotal m := by omega
  obtain ⟨k1, k2, k3, k4, k5⟩ := mergeSearch_spec m wf d hd
  obtain ⟨l1, l2, l3, l4, l5⟩ := mergeSearch_spec m wf d' hd'
  set x := (MergePathSearch d (rowEnds m) m.num_rows m.num_nonzeros).1 with hx
  set x' := (MergePathSearch d' (rowEnds m) m.num_rows m.num_nonzeros).1 with hx'
  rw [k5, l5]
  have key : x' ≤ x + (d' - d) := by
    by_contra hcon
    push_neg at hcon
    have hxlt : x < x' := by omega
    have hx'pos : 1 ≤ x' := by omega
    have h3 := l3 (x' - 1) (by omega) (by omega)
    have h4 := k4 x (le_refl _) (by omega)
    have hmx : rowEnds m x ≤ rowEnds m (x' - 1) :=
      ro_mono m wf (x + 1) (x' - 1 + 1) (by omega) (by omega)
    omega
  omega

theorem consumeRows_snd_eq_max (rend : ℕ → ℕ) (g : ℕ → ℕ → ℚ) (nv : ℕ) :
    ∀ fuel x y Y,
      (∀ j, x ≤ j → j + 1 ≤ x + (fuel - 1) → rend j ≤ rend (j + 1)) →
      1 ≤ fuel →
      (consumeRows rend g nv fuel x y Y).2 = max y (rend (x + (fuel - 1))) := by
  intro fuel
  induction fuel with
  | zero => intro x y Y _ h; omega
  | succ f ih =>
    intro x y Y hmono _
    simp only [consumeRows]
    rcases Nat.eq_zero_or_pos f with h0 | h0
    · subst h0
      simp only [consumeRows]
      have : x + (0 + 1 - 1) = x := by omega
      rw [this]
    · rw [ih (x + 1) (max y (rend x)) _ (by
        intro j hj1 hj2
        exact hmono j (by omega) (by omega)) h0]
      have hstep : rend x ≤ rend (x + 1 + (f - 1)) := by
        have := mono_of_adj (fun j => rend (x + j)) f
          (fun j hj => by
            have := hmono (x + j) (by omega) (by omega)
            have harg : x + j + 1 = x + (j + 1) := by omega
            rw [harg] at this
            exact this) 0 f (by omega) (le_refl _)
        have harg : x + 1 + (f - 1) = x + f := by omega
        rw [harg]
        simpa using this
      have harg2 : x + 1 + (f - 1) = x + (f + 1 - 1) := by omega
      rw [harg2] at hstep ⊢
      omega

theorem mergeYcEnd_eq (m : CsrMatrix) (wf : CsrWf m) (xrm : ℕ → ℚ)
    (nv nt t : ℕ) :
    mergeYcEnd m xrm nv nt t =
      max (mergeCoord m nt t).2 (m.row_offsets (mergeCoordEnd m nt t).1) := by
  have hsx_le : (mergeCoord m nt t).1 ≤ (mergeCoordEnd m nt t).1 := by
    rw [mergeCoordEnd_eq_next]
    exact mergeCoord_fst_mono m wf nt t (t + 1) (by omega)
  have hex_nr : (mergeCoordEnd m nt t).1 ≤ m.num_rows := by
    obtain ⟨k1, k2, k3, k4, k5⟩ := mergeSearch_spec m wf (mergeEndDiag m nt t)
      (mergeEndDiag_le_total m nt t)
    unfold mergeCoordEnd
    omega
  unfold mergeYcEnd
  rcases Nat.eq_or_lt_of_le hsx_le with heq | hlt
  · have hf0 : (mergeCoordEnd m nt t).1 - (mergeCoord m nt t).1 = 0 := by omega
    rw [hf0]
    simp only [consumeRows]
    have h1 := mps_lower m wf (mergeStartDiag m nt t)
      (mergeStartDiag_le_total m nt t)
    have h2 := mergeCoord_snd_eq m wf nt t
    rw [← heq]
    unfold mergeCoord at *
    omega
  · rw [consumeRows_snd_eq_max (rowEnds m) (spmmG m xrm nv) nv
      ((mergeCoordEnd m nt t).1 - (mergeCoord m nt t).1)
      (mergeCoord m nt t).1 (mergeCoord m nt t).2 (fun _ => 0)
      (by
        intro j hj1 hj2
        exact ro_mono m wf (j + 1) (j + 1 + 1) (by omega) (by omega))
      (by omega)]
    have harg : (mergeCoord m nt t).1 +
        ((mergeCoordEnd m nt t).1 - (mergeCoord m nt t).1 - 1) =
        (mergeCoordEnd m nt t).1 - 1 := by omega
    rw [harg]
    have hre : rowEnds m ((mergeCoordEnd m nt t).1 - 1) =
        m.row_offsets (mergeCoordEnd m nt t).1 := by
      unfold rowEnds
      congr 1
      omega
    rw [hre]

theorem nzYcEnd_eq (m : CsrMatrix) (wf : CsrWf m) (xrm : ℕ → ℚ)
    (nv nt t : ℕ) :
    nzYcEnd m xrm nv nt t =
      max (nzStartY m nt t) (m.row_offsets (nzEndX m nt t)) := by
  have hsx_le : nzStartX m nt t ≤ nzEndX m nt t := by
    rw [nzEndX_eq_next]
    exact nzStartX_mono m wf nt t (t + 1) (by omega)
  have hex_nr : nzEndX m nt t ≤ m.num_rows := by
    obtain ⟨k1, k2, k3⟩ := rowSearch_spec m wf (nzEndY m nt t)
    unfold nzEndX
    omega
  obtain ⟨s1, s2, s3⟩ := rowSearch_spec m wf (nzStartY m nt t)
  unfold nzYcEnd
  rcases Nat.eq_or_lt_of_le hsx_le with heq | hlt
  · have hf0 : nzEndX m nt t - nzStartX m nt t = 0 := by omega
    rw [hf0]
    simp only [consumeRows]
    rw [← heq]
    rcases Nat.eq_zero_or_pos (nzStartX m nt t) with h0 | h0
    · rw [h0, wf.1]
      omega
    · have hXdef : nzStartX m nt t =
          RowPathSearch (nzStartY m nt t) (rowEnds m) m.num_rows := rfl
      have := s2 (nzStartX m nt t - 1) (by omega)
      have hre : rowEnds m (nzStartX m nt t - 1) =
          m.row_offsets (nzStartX m nt t) := by
        unfold rowEnds
        congr 1
        omega
      omega
  · rw [consumeRows_snd_eq_max (rowEnds m) (spmmG m xrm nv) nv
      (nzEndX m nt t - nzStartX m nt t)
      (nzStartX m nt t) (nzStartY m nt t) (fun _ => 0)
      (by
        intro j hj1 hj2
        exact ro_mono m wf (j + 1) (j + 1 + 1) (by omega) (by omega))
      (by omega)]
    have harg : nzStartX m nt t + (nzEndX m nt t - nzStartX m nt t - 1) =
        nzEndX m nt t - 1 := by omega
    rw [harg]
    have hre : rowEnds m (nzEndX m nt t - 1) =
        m.row_offsets (nzEndX m nt t) := by
      unfold rowEnds
      congr 1
      omega
    rw [hre]

theorem mergeCursorAt_eq (m : CsrMatrix) (wf : CsrWf m) (xrm : ℕ → ℚ)
    (nv nt t r : ℕ) (Y : ℕ → ℚ)
    (hsx : (mergeCoord m nt t).1 ≤ r) (hrnr : r ≤ m.num_rows) :
    (consumeRows (rowEnds m) (spmmG m xrm nv) nv (r - (mergeCoord m nt t).1)
      (mergeCoord m nt t).1 (mergeCoord m nt t).2 Y).2 =
      max (mergeCoord m nt t).2 (m.row_offsets r) := by
  rcases Nat.eq_or_lt_of_le hsx with heq | hlt
  · have hf0 : r - (mergeCoord m nt t).1 = 0 := by omega
    rw [hf0]
    simp only [consumeRows]
    have h1 := mps_lower m wf (mergeStartDiag m nt t)
      (mergeStartDiag_le_total m nt t)
    have h2 := mergeCoord_snd_eq m wf nt t
    rw [← heq]
    unfold mergeCoord at *
    omega
  · rw [consumeRows_snd_eq_max (rowEnds m) (spmmG m xrm nv) nv
      (r - (mergeCoord m nt t).1)
      (mergeCoord m nt t).1 (mergeCoord m nt t).2 Y
      (by
        intro j hj1 hj2
        exact ro_mono m wf (j + 1) (j + 1 + 1) (by omega) (by omega))
      (by omega)]
    have harg : (mergeCoord m nt t).1 + (r - (mergeCoord m nt t).1 - 1) =
        r - 1 := by omega
    rw [harg]
    have hre : rowEnds m (r - 1) = m.row_offsets r := by
      unfold rowEnds
      congr 1
      omega
    rw [hre]

theorem nzCursorAt_eq (m : CsrMatrix) (wf : CsrWf m) (xrm : ℕ → ℚ)
    (nv nt t r : ℕ) (Y : ℕ → ℚ)
    (hsx : nzStartX m nt t ≤ r) (hrnr : r ≤ m.num_rows) :
    (consumeRows (rowEnds m) (spmmG m xrm nv) nv (r - nzStartX m nt t)
      (nzStartX m nt t) (nzStartY m nt t) Y).2 =
      max (nzStartY m nt t) (m.row_offsets r) := by
  obtain ⟨s1, s2, s3⟩ := rowSearch_spec m wf (nzStartY m nt t)
  rcases Nat.eq_or_lt_of_le hsx with heq | hlt
  · have hf0 : r - nzStartX m nt t = 0 := by omega
    rw [hf0]
    simp only [consumeRows]
    rw [← heq]
    rcases Nat.eq_zero_or_pos (nzStartX m nt t) with h0 | h0
    · rw [h0, wf.1]
      omega
    · have hXdef : nzStartX m nt t =
          RowPathSearch (nzStartY m nt t) (rowEnds m) m.num_rows := rfl
      have := s2 (nzStartX m nt t - 1) (by omega)
      have hre : rowEnds m (nzStartX m nt t - 1) =
          m.row_offsets (nzStartX m nt t) := by
        unfold rowEnds
        congr 1
        omega
      omega
  · rw [consumeRows_snd_eq_max (rowEnds m) (spmmG m xrm nv) nv
      (r - nzStartX m nt t) (nzStartX m nt t) (nzStartY m nt t) Y
      (by
        intro j hj1 hj2
        exact ro_mono m wf (j + 1) (j + 1 + 1) (by omega) (by omega))
      (by omega)]
    have harg : nzStartX m nt t + (r - nzStartX m nt t - 1) = r - 1 := by omega
    rw [harg]
    have hre : rowEnds m (r - 1) = m.row_offsets r := by
      unfold rowEnds
      congr 1
      omega
    rw [hre]

theorem mergeParallelY_notMem (m : CsrMatrix) (xrm : ℕ → ℚ) (nv nt : ℕ) :
    ∀ tcnt Y0 r i, i < nv →
      (∀ t, t < tcnt →
        ¬ ((mergeCoord m nt t).1 ≤ r ∧ r < (mergeCoordEnd m nt t).1)) →
      mergeParallelY m xrm nv nt tcnt Y0 (r * nv + i) = Y0 (r * nv + i) := by
  intro tcnt
  induction tcnt with
  | zero => intro Y0 r i _ _; rfl
  | succ tcnt ih =>
    intro Y0 r i hi hno
    simp only [mergeParallelY]
    rw [consumeRows_fst_notMem _ _ _ _ _ _ _ _ (by
      intro t2 ht2
      rw [slot_cases r ((mergeCoord m nt tcnt).1 + t2) i nv hi]
      have := hno tcnt (by omega)
      omega)]
    exact ih Y0 r i hi (fun t ht => hno t (by omega))

theorem mergeParallelY_owner (m : CsrMatrix) (wf : CsrWf m) (xrm : ℕ → ℚ)
    (nv nt : ℕ) :
    ∀ tcnt Y0 r i t0, i < nv → r < m.num_rows → t0 < tcnt →
      (mergeCoord m nt t0).1 ≤ r → r < (mergeCoordEnd m nt t0).1 →
      (∀ t, t < tcnt → t ≠ t0 →
        ¬ ((mergeCoord m nt t).1 ≤ r ∧ r < (mergeCoordEnd m nt t).1)) →
      mergeParallelY m xrm nv nt tcnt Y0 (r * nv + i) =
        ∑ k ∈ Finset.Ico (max (mergeCoord m nt t0).2 (m.row_offsets r))
          (m.row_offsets (r + 1)), spmmG m xrm nv k i := by
  intro tcnt
  induction tcnt with
  | zero => intro Y0 r i t0 _ _ h; omega
  | succ tcnt ih =>
    intro Y0 r i t0 hi hr ht0 hs0 he0 huniq
    rcases Nat.eq_or_lt_of_le (Nat.lt_succ_iff.mp ht0) with heq | hlt
    · subst heq
      simp only [mergeParallelY]
      rw [consumeRows_fst_row _ _ _ _ _ _ _ _ _ hi hs0 (by omega)]
      rw [mergeCursorAt_eq m wf xrm nv nt t0 r _ hs0 (by omega)]
      rfl
    · simp only [mergeParallelY]
      rw [consumeRows_fst_notMem _ _ _ _ _ _ _ _ (by
        intro t2 ht2
        rw [slot_cases r ((mergeCoord m nt tcnt).1 + t2) i nv hi]
        have := huniq tcnt (by omega) (by omega)
        omega)]
      exact ih Y0 r i t0 hi hr hlt hs0 he0
        (fun t ht hne => huniq t (by omega) hne)

theorem nzParallelY_notMem (m : CsrMatrix) (xrm : ℕ → ℚ) (nv nt : ℕ) :
    ∀ tcnt Y0 r i, i < nv →
      (∀ t, t < tcnt → ¬ (nzStartX m nt t ≤ r ∧ r < nzEndX m nt t)) →
      nzParallelY m xrm nv nt tcnt Y0 (r * nv + i) = Y0 (r * nv + i) := by
  intro tcnt
  induction tcnt with
  | zero => intro Y0 r i _ _; rfl
  | succ tcnt ih =>
    intro Y0 r i hi hno
    simp only [nzParallelY]
    rw [consumeRows_fst_notMem _ _ _ _ _ _ _ _ (by
      intro t2 ht2
      rw [slot_cases r (nzStartX m nt tcnt + t2) i nv hi]
      have := hno tcnt (by omega)
      omega)]
    exact ih Y0 r i hi (fun t ht => hno t (by omega))

theorem nzParallelY_owner (m : CsrMatrix) (wf : CsrWf m) (xrm : ℕ → ℚ)
    (nv nt : ℕ) :
    ∀ tcnt Y0 r i t0, i < nv → r < m.num_rows → t0 < tcnt →
      nzStartX m nt t0 ≤ r → r < nzEndX m nt t0 →
      (∀ t, t < tcnt → t ≠ t0 →
        ¬ (nzStartX m nt t ≤ r ∧ r < nzEndX m nt t)) →
      nzParallelY m xrm nv nt tcnt Y0 (r * nv + i) =
        ∑ k ∈ Finset.Ico (max (nzStartY m nt t0) (m.row_offsets r))
          (m.row_offsets (r + 1)), spmmG m xrm nv k i := by
  intro tcnt
  induction tcnt with
  | zero => intro Y0 r i t0 _ _ h; omega
  | succ tcnt ih =>
    intro Y0 r i t0 hi hr ht0 hs0 he0 huniq
    rcases Nat.eq_or_lt_of_le (Nat.lt_succ_iff.mp ht0) with heq | hlt
    · subst heq
      simp only [nzParallelY]
      rw [consumeRows_fst_row _ _ _ _ _ _ _ _ _ hi hs0 (by omega)]
      rw [nzCursorAt_eq m wf xrm nv nt t0 r _ hs0 (by omega)]
      rfl
    · simp only [nzParallelY]
      rw [consumeRows_fst_notMem _ _ _ _ _ _ _ _ (by
        intro t2 ht2
        rw [slot_cases r (nzStartX m nt tcnt + t2) i nv hi]
        have := huniq tcnt (by omega) (by omega)
        omega)]
      exact ih Y0 r i t0 hi hr hlt hs0 he0
        (fun t ht hne => huniq t (by omega) hne)

theorem clamped_telescope (f : ℕ → ℚ) :
    ∀ (n : ℕ) (q : ℕ → ℕ) (lo hi : ℕ),
      (∀ t, t < n → q t ≤ q (t + 1)) → q 0 ≤ lo → hi ≤ q n → lo ≤ hi →
      (∑ t ∈ Finset.range n,
        ∑ k ∈ Finset.Ico (max (q t) lo) (min (q (t + 1)) hi), f k) =
        ∑ k ∈ Finset.Ico lo hi, f k := by
  intro n
  induction n with
  | zero =>
    intro q lo hi _ h0 hn hlh
    have : lo = hi := by omega
    subst this
    simp
  | succ n ih =>
    intro q lo hi hmono h0 hn hlh
    have hchain : ∀ i, i ≤ n → q 1 ≤ q (i + 1) := by
      intro i hi2
      exact mono_of_adj (fun t => q (t + 1)) n
        (fun t ht => hmono (t + 1) (by omega)) 0 i (by omega) hi2
    rw [Finset.sum_range_succ']
    by_cases hq1 : hi ≤ q 1
    · have hF0 : Finset.Ico (max (q 0) lo) (min (q 1) hi) = Finset.Ico lo hi := by
        ext k
        simp only [Finset.mem_Ico]
        omega
      have hrest : ∀ i ∈ Finset.range n,
          (∑ k ∈ Finset.Ico (max (q (i + 1)) lo) (min (q (i + 1 + 1)) hi), f k)
            = 0 := by
        intro i hi2
        rw [Finset.mem_range] at hi2
        have hc := hchain i (by omega)
        have : Finset.Ico (max (q (i + 1)) lo) (min (q (i + 1 + 1)) hi) = ∅ :=
          Finset.Ico_eq_empty (by omega)
        rw [this, Finset.sum_empty]
      rw [Finset.sum_congr rfl hrest, Finset.sum_const_zero, hF0, zero_add]
    · have hF0 : Finset.Ico (max (q 0) lo) (min (q 1) hi) =
          Finset.Ico lo (max lo (q 1)) := by
        ext k
        simp only [Finset.mem_Ico]
        omega
      have hrest : ∀ i ∈ Finset.range n,
          (∑ k ∈ Finset.Ico (max (q (i + 1)) lo) (min (q (i + 1 + 1)) hi), f k)
            = ∑ k ∈ Finset.Ico (max (q (i + 1)) (max lo (q 1)))
                (min (q (i + 1 + 1)) hi), f k := by
        intro i hi2
        rw [Finset.mem_range] at hi2
        have hc := hchain i (by omega)
        have : Finset.Ico (max (q (i + 1)) lo) (min (q (i + 1 + 1)) hi) =
            Finset.Ico (max (q (i + 1)) (max lo (q 1)))
              (min (q (i + 1 + 1)) hi) := by
          ext k
          simp only [Finset.mem_Ico]
          omega
        rw [this]
      rw [Finset.sum_congr rfl hrest]
      rw [ih (fun t => q (t + 1)) (max lo (q 1)) hi
        (fun t ht => hmono (t + 1) (by omega))
        (by show q 1 ≤ max lo (q 1); omega) hn (by omega)]
      rw [hF0, add_comm]
      exact Finset.sum_Ico_consecutive f (by omega) (by omega)

/-- Supporting result: in exact arithmetic the merge-path kernel agrees with
the serial reference on every row (`alpha = 1`, `beta = 0`), for every thread
count, when the row-major buffer holds column `i` of the same dense operand.
This isolates C1's failure to the nonzero-split kernel. -/
theorem ompMergeCsrmm_matches_gold (m : CsrMatrix) (wf : CsrWf m)
    (xrm x : ℕ → ℚ) (nv nt : ℕ) (hnt : 1 ≤ nt) (Y0 yIn : ℕ → ℚ) (r i : ℕ)
    (hi : i < nv) (hr : r < m.num_rows)
    (hx : ∀ j, j < m.num_cols → xrm (j * nv + i) = x j) :
    ompMergeCsrmm nt m xrm nv Y0 (r * nv + i) = spmvGold m x yIn Y0 1 0 r := by
  obtain ⟨t0, ⟨ht0nt, ht0s, ht0e⟩, huniq⟩ := merge_row_owner m wf nt hnt r hr
  have huniq2 : ∀ t, t < nt → t ≠ t0 →
      ¬ ((mergeCoord m nt t).1 ≤ r ∧ r < (mergeCoordEnd m nt t).1) := by
    intro t ht hne hcon
    exact hne (huniq t ⟨ht, hcon.1, hcon.2⟩)
  have hlow : ∀ t, m.row_offsets (mergeCoord m nt t).1 ≤ (mergeCoord m nt t).2 := by
    intro t
    have h1 := mps_lower m wf (mergeStartDiag m nt t) (mergeStartDiag_le_total m nt t)
    have h2 := mergeCoord_snd_eq m wf nt t
    unfold mergeCoord at *
    omega
  have hupp : ∀ t, (mergeCoord m nt t).1 < m.num_rows →
      (mergeCoord m nt t).2 ≤ m.row_offsets ((mergeCoord m nt t).1 + 1) := by
    intro t hlt
    have h1 := mps_upper m wf (mergeStartDiag m nt t)
      (mergeStartDiag_le_total m nt t) (by unfold mergeCoord at *; exact hlt)
    have h2 := mergeCoord_snd_eq m wf nt t
    unfold mergeCoord at *
    omega
  have hxnr : ∀ t, (mergeCoord m nt t).1 ≤ m.num_rows := by
    intro t
    obtain ⟨k1, k2, k3, k4, k5⟩ := mergeSearch_spec m wf (mergeStartDiag m nt t)
      (mergeStartDiag_le_total m nt t)
    unfold mergeCoord
    omega
  have hq0 : (mergeCoord m nt 0).2 = 0 := by
    have h2 := mergeCoord_snd_eq m wf nt 0
    rw [mergeStartDiag_zero] at h2
    omega
  have hqnt : (mergeCoord m nt nt).2 = m.num_nonzeros := by
    have h2 := mergeCoord_snd_eq m wf nt nt
    rw [mergeStartDiag_last m nt hnt] at h2
    have h3 := mergeCoord_fst_last m wf nt hnt
    have h4 : mergeTotal m = m.num_rows + m.num_nonzeros := rfl
    omega
  have hqmono : ∀ t, t < nt →
      (mergeCoord m nt t).2 ≤ (mergeCoord m nt (t + 1)).2 := by
    intro t _
    unfold mergeCoord
    exact mps_y_mono m wf _ _ (mergeStartDiag_le_total m nt (t + 1))
      (mergeStartDiag_mono m nt t (t + 1) (by omega))
  have hronz := ro_le_nnz m wf (r + 1) (by omega)
  have hrole := ro_mono m wf r (r + 1) (by omega) (by omega)
  have htel := clamped_telescope (fun k => spmmG m xrm nv k i) nt
    (fun t => (mergeCoord m nt t).2) (m.row_offsets r) (m.row_offsets (r + 1))
    hqmono (by show (mergeCoord m nt 0).2 ≤ m.row_offsets r; omega)
    (by show m.row_offsets (r + 1) ≤ (mergeCoord m nt nt).2; omega) hrole
  have hext0 : (mergeCoordEnd m nt t0).1 = (mergeCoord m nt (t0 + 1)).1 := by
    rw [mergeCoordEnd_eq_next]
  have hFt0 : (∑ k ∈ Finset.Ico (max ((mergeCoord m nt t0).2) (m.row_offsets r))
        (min ((mergeCoord m nt (t0 + 1)).2) (m.row_offsets (r + 1))),
        spmmG m xrm nv k i) =
      ∑ k ∈ Finset.Ico (max ((mergeCoord m nt t0).2) (m.row_offsets r))
        (m.row_offsets (r + 1)), spmmG m xrm nv k i := by
    have h1 := hlow (t0 + 1)
    have h2 := ro_mono m wf (r + 1) ((mergeCoord m nt (t0 + 1)).1)
      (by omega) (hxnr (t0 + 1))
    have : min ((mergeCoord m nt (t0 + 1)).2) (m.row_offsets (r + 1)) =
        m.row_offsets (r + 1) := by omega
    rw [this]
  have herase : ∀ t ∈ (Finset.range nt).erase t0,
      (∑ k ∈ Finset.Ico (max ((mergeCoord m nt t).2) (m.row_offsets r))
        (min ((mergeCoord m nt (t + 1)).2) (m.row_offsets (r + 1))),
        spmmG m xrm nv k i) =
      if mergeCarryRow m nt t = r then mergeCarryVal m xrm nv nt t i else 0 := by
    intro t ht
    rw [Finset.mem_erase, Finset.mem_range] at ht
    obtain ⟨hne, htn⟩ := ht
    have hnotown := huniq2 t htn hne
    rw [mergeCoordEnd_eq_next] at hnotown
    by_cases hcr : mergeCarryRow m nt t = r
    · rw [if_pos hcr]
      unfold mergeCarryRow at hcr
      rw [mergeCoordEnd_eq_next] at hcr
      unfold mergeCarryVal
      rw [mergeYcEnd_eq m wf xrm nv nt t, mergeCoordEnd_eq_next, hcr]
      have h1 := hupp (t + 1)
      have : min ((mergeCoord m nt (t + 1)).2) (m.row_offsets (r + 1)) =
          (mergeCoord m nt (t + 1)).2 := by
        rw [← hcr] at hr ⊢
        have := h1 hr
        omega
      rw [this]
    · rw [if_neg hcr]
      unfold mergeCarryRow at hcr
      rw [mergeCoordEnd_eq_next] at hcr
      have hcases : r < (mergeCoord m nt t).1 ∨ (mergeCoord m nt (t + 1)).1 < r := by
        rcases Nat.lt_or_ge r (mergeCoord m nt t).1 with h | h
        · exact Or.inl h
        · right
          by_contra hcon
          push_neg at hcon
          exact hnotown ⟨h, by omega⟩
      have hempty : Finset.Ico (max ((mergeCoord m nt t).2) (m.row_offsets r))
          (min ((mergeCoord m nt (t + 1)).2) (m.row_offsets (r + 1))) = ∅ := by
        apply Finset.Ico_eq_empty
        rcases hcases with h | h
        · have h1 := hlow t
          have h2 := ro_mono m wf (r + 1) ((mergeCoord m nt t).1)
            (by omega) (hxnr t)
          omega
        · have h1 := hupp (t + 1) (by omega)
          have h2 := ro_mono m wf ((mergeCoord m nt (t + 1)).1 + 1) r
            (by omega) (by omega)
          omega
      rw [hempty, Finset.sum_empty]
  have hlastex : (mergeCoordEnd m nt (nt - 1)).1 = m.num_rows := by
    rw [mergeCoordEnd_eq_next]
    have hs : nt - 1 + 1 = nt := by omega
    rw [hs]
    exact mergeCoord_fst_last m wf nt hnt
  have hfil : (((Finset.range nt).erase t0).filter
      (fun t => mergeCarryRow m nt t = r)) =
      ((Finset.range (nt - 1)).filter (fun t => mergeCarryRow m nt t = r)) := by
    ext t
    simp only [Finset.mem_filter, Finset.mem_erase, Finset.mem_range]
    constructor
    · rintro ⟨⟨hne, htn⟩, hcr⟩
      refine ⟨?_, hcr⟩
      by_contra hcon
      have hteq : t = nt - 1 := by omega
      rw [hteq] at hcr
      unfold mergeCarryRow at hcr
      rw [hlastex] at hcr
      omega
    · rintro ⟨htn, hcr⟩
      refine ⟨⟨?_, by omega⟩, hcr⟩
      intro hteq
      subst hteq
      unfold mergeCarryRow at hcr
      rw [mergeCoordEnd_eq_next] at hcr
      omega
  have hcar : (∑ t ∈ (Finset.range nt).erase t0,
      ∑ k ∈ Finset.Ico (max ((mergeCoord m nt t).2) (m.row_offsets r))
        (min ((mergeCoord m nt (t + 1)).2) (m.row_offsets (r + 1))),
        spmmG m xrm nv k i) =
      ∑ t ∈ (Finset.range (nt - 1)).filter
        (fun t => mergeCarryRow m nt t = r), mergeCarryVal m xrm nv nt t i := by
    rw [Finset.sum_congr rfl herase, ← Finset.sum_filter, hfil]
  have hker : ompMergeCsrmm nt m xrm nv Y0 (r * nv + i) =
      mergeParallelY m xrm nv nt nt Y0 (r * nv + i) +
        ∑ t ∈ (Finset.range (nt - 1)).filter
          (fun t => mergeCarryRow m nt t = r), mergeCarryVal m xrm nv nt t i :=
    carryFixup_val m.num_rows nv (mergeCarryRow m nt) (mergeCarryVal m xrm nv nt)
      (nt - 1) (mergeParallelY m xrm nv nt nt Y0) r i hi hr
  have hpar := mergeParallelY_owner m wf xrm nv nt nt Y0 r i t0 hi hr ht0nt
    ht0s ht0e huniq2
  have hsplit := Finset.add_sum_erase (Finset.range nt)
    (fun t => ∑ k ∈ Finset.Ico (max ((mergeCoord m nt t).2) (m.row_offsets r))
      (min ((mergeCoord m nt (t + 1)).2) (m.row_offsets (r + 1))),
      spmmG m xrm nv k i) (Finset.mem_range.mpr ht0nt)
  have hrow : ompMergeCsrmm nt m xrm nv Y0 (r * nv + i) =
      ∑ k ∈ Finset.Ico (m.row_offsets r) (m.row_offsets (r + 1)),
        spmmG m xrm nv k i := by
    rw [hker, hpar, ← hFt0, ← hcar, ← htel, ← hsplit]
  rw [hrow]
  unfold spmvGold
  rw [spmvGoldAux_val, if_pos hr]
  rw [zero_mul, zero_add]
  apply Finset.sum_congr rfl
  intro k hk
  rw [Finset.mem_Ico] at hk
  have hknz : k < m.num_nonzeros := by omega
  have hcol := wf.2.2.2 k hknz
  unfold spmmG
  rw [hx (m.column_indices k) hcol]
  ring

/-- Supporting result: the row-parallel baseline kernel (row-major input and
output) agrees with the serial reference on every row in exact arithmetic. -/
theorem ompCsrSpmmT_matches_gold (m : CsrMatrix) (wf : CsrWf m)
    (x xrm0 Y0 yIn : ℕ → ℚ) (nv nt u r i : ℕ) (hi : i < nv)
    (hr : r < m.num_rows)
    (hx : ∀ j, j < m.num_cols → xrm0 (j * nv + i) = x j) :
    ompCsrSpmmT nt m x xrm0 nv true true u Y0 (r * nv + i) =
      spmvGold m x yIn Y0 1 0 r := by
  have h : ompCsrSpmmT nt m x xrm0 nv true true u Y0 =
      spmmTRows m xrm0 nv true m.num_rows Y0 := rfl
  rw [h, spmmTRows_val_rm m xrm0 nv m.num_rows Y0 r i hi hr]
  unfold spmvGold
  rw [spmvGoldAux_val, if_pos hr, zero_mul, zero_add]
  apply Finset.sum_congr rfl
  intro k hk
  rw [Finset.mem_Ico] at hk
  have hknz : k < m.num_nonzeros := by
    have := ro_le_nnz m wf (r + 1) (by omega)
    omega
  have hcol := wf.2.2.2 k hknz
  unfold spmmG
  rw [hx (m.column_indices k) hcol]
  ring

/-- Supporting result: the nonzero-split kernel agrees with the serial
reference on every row whose end offset is strictly below `num_nonzeros`
(exactly the rows before the one whose contribution the skipped last-thread
carry-out holds). -/
theorem ompNonzeroSplit_matches_gold_early_rows (m : CsrMatrix) (wf : CsrWf m)
    (xrm x : ℕ → ℚ) (nv nt : ℕ) (hnt : 1 ≤ nt) (Y0 yIn : ℕ → ℚ) (r i : ℕ)
    (hi : i < nv) (hr : r < m.num_rows)
    (hro : m.row_offsets (r + 1) < m.num_nonzeros)
    (hx : ∀ j, j < m.num_cols → xrm (j * nv + i) = x j) :
    ompNonzeroSplitCsrmm nt m xrm nv Y0 (r * nv + i) =
      spmvGold m x yIn Y0 1 0 r := by
  obtain ⟨t0, ⟨ht0nt, ht0s, ht0e⟩, huniq⟩ :=
    (nz_row_owner m wf nt hnt r hr).mpr hro
  have huniq2 : ∀ t, t < nt → t ≠ t0 →
      ¬ (nzStartX m nt t ≤ r ∧ r < nzEndX m nt t) := by
    intro t ht hne hcon
    exact hne (huniq t ⟨ht, hcon.1, hcon.2⟩)
  have hlow : ∀ t, m.row_offsets (nzStartX m nt t) ≤ nzStartY m nt t := by
    intro t
    obtain ⟨s1, s2, s3⟩ := rowSearch_spec m wf (nzStartY m nt t)
    rcases Nat.eq_zero_or_pos (nzStartX m nt t) with h0 | h0
    · rw [h0, wf.1]
      omega
    · have hXdef : nzStartX m nt t =
          RowPathSearch (nzStartY m nt t) (rowEnds m) m.num_rows := rfl
      have := s2 (nzStartX m nt t - 1) (by omega)
      have hre : rowEnds m (nzStartX m nt t - 1) =
          m.row_offsets (nzStartX m nt t) := by
        unfold rowEnds
        congr 1
        omega
      omega
  have hupp : ∀ t, nzStartX m nt t < m.num_rows →
      nzStartY m nt t ≤ m.row_offsets (nzStartX m nt t + 1) := by
    intro t hlt
    obtain ⟨s1, s2, s3⟩ := rowSearch_spec m wf (nzStartY m nt t)
    have := s3 (nzStartX m nt t) (by
      show RowPathSearch (nzStartY m nt t) (rowEnds m) m.num_rows ≤ _
      exact le_refl _) hlt
    have hre : rowEnds m (nzStartX m nt t) =
        m.row_offsets (nzStartX m nt t + 1) := rfl
    omega
  have hxnr : ∀ t, nzStartX m nt t ≤ m.num_rows := by
    intro t
    obtain ⟨s1, s2, s3⟩ := rowSearch_spec m wf (nzStartY m nt t)
    exact s1
  have hq0 : nzStartY m nt 0 = 0 := nzStartY_zero m nt
  have hqnt : nzStartY m nt nt = m.num_nonzeros := nzStartY_last m nt hnt
  have hqmono : ∀ t, t < nt → nzStartY m nt t ≤ nzStartY m nt (t + 1) := by
    intro t _
    exact nzStartY_mono m nt t (t + 1) (by omega)
  have hronz := ro_le_nnz m wf (r + 1) (by omega)
  have hrole := ro_mono m wf r (r + 1) (by omega) (by omega)
  have htel := clamped_telescope (fun k => spmmG m xrm nv k i) nt
    (fun t => nzStartY m nt t) (m.row_offsets r) (m.row_offsets (r + 1))
    hqmono (by show nzStartY m nt 0 ≤ m.row_offsets r; omega)
    (by show m.row_offsets (r + 1) ≤ nzStartY m nt nt; omega) hrole
  have hFt0 : (∑ k ∈ Finset.Ico (max (nzStartY m nt t0) (m.row_offsets r))
        (min (nzStartY m nt (t0 + 1)) (m.row_offsets (r + 1))),
        spmmG m xrm nv k i) =
      ∑ k ∈ Finset.Ico (max (nzStartY m nt t0) (m.row_offsets r))
        (m.row_offsets (r + 1)), spmmG m xrm nv k i := by
    obtain ⟨e1, e2, e3⟩ := rowSearch_spec m wf (nzEndY m nt t0)
    have h1 : rowEnds m r < nzEndY m nt t0 := by
      apply e2
      exact ht0e
    have hre : rowEnds m r = m.row_offsets (r + 1) := rfl
    have h2 : nzEndY m nt t0 = nzStartY m nt (t0 + 1) := nzEndY_eq_next m nt t0
    have : min (nzStartY m nt (t0 + 1)) (m.row_offsets (r + 1)) =
        m.row_offsets (r + 1) := by omega
    rw [this]
  have herase : ∀ t ∈ (Finset.range nt).erase t0,
      (∑ k ∈ Finset.Ico (max (nzStartY m nt t) (m.row_offsets r))
        (min (nzStartY m nt (t + 1)) (m.row_offsets (r + 1))),
        spmmG m xrm nv k i) =
      if nzCarryRow m nt t = r then nzCarryVal m xrm nv nt t i else 0 := by
    intro t ht
    rw [Finset.mem_erase, Finset.mem_range] at ht
    obtain ⟨hne, htn⟩ := ht
    have hnotown := huniq2 t htn hne
    rw [nzEndX_eq_next] at hnotown
    by_cases hcr : nzCarryRow m nt t = r
    · rw [if_pos hcr]
      unfold nzCarryRow at hcr
      rw [nzEndX_eq_next] at hcr
      unfold nzCarryVal
      rw [nzYcEnd_eq m wf xrm nv nt t, nzEndX_eq_next, hcr,
        nzEndY_eq_next m nt t]
      have h1 := hupp (t + 1)
      have : min (nzStartY m nt (t + 1)) (m.row_offsets (r + 1)) =
          nzStartY m nt (t + 1) := by
        rw [← hcr] at hr ⊢
        have := h1 hr
        omega
      rw [this]
    · rw [if_neg hcr]
      unfold nzCarryRow at hcr
      rw [nzEndX_eq_next] at hcr
      have hcases : r < nzStartX m nt t ∨ nzStartX m nt (t + 1) < r := by
        rcases Nat.lt_or_ge r (nzStartX m nt t) with h | h
        · exact Or.inl h
        · right
          by_contra hcon
          push_neg at hcon
          exact hnotown ⟨h, by omega⟩
      have hempty : Finset.Ico (max (nzStartY m nt t) (m.row_offsets r))
          (min (nzStartY m nt (t + 1)) (m.row_offsets (r + 1))) = ∅ := by
        apply Finset.Ico_eq_empty
        rcases hcases with h | h
        · have h1 := hlow t
          have h2 := ro_mono m wf (r + 1) (nzStartX m nt t)
            (by omega) (hxnr t)
          omega
        · have h1 := hupp (t + 1) (by omega)
          have h2 := ro_mono m wf (nzStartX m nt (t + 1) + 1) r
            (by omega) (by omega)
          omega
      rw [hempty, Finset.sum_empty]
  have hrlast : r < nzStartX m nt nt := by
    rw [nzStartX_last m nt hnt]
    obtain ⟨k1, k2, k3⟩ := rowSearch_spec m wf m.num_nonzeros
    by_contra hcon
    have := k3 r (by omega) hr
    have hre : rowEnds m r = m.row_offsets (r + 1) := rfl
    omega
  have hfil : (((Finset.range nt).erase t0).filter
      (fun t => nzCarryRow m nt t = r)) =
      ((Finset.range (nt - 1)).filter (fun t => nzCarryRow m nt t = r)) := by
    ext t
    simp only [Finset.mem_filter, Finset.mem_erase, Finset.mem_range]
    constructor
    · rintro ⟨⟨hne, htn⟩, hcr⟩
      refine ⟨?_, hcr⟩
      by_contra hcon
      have hteq : t = nt - 1 := by omega
      rw [hteq] at hcr
      unfold nzCarryRow at hcr
      rw [nzEndX_eq_next] at hcr
      have hs : nt - 1 + 1 = nt := by omega
      rw [hs] at hcr
      omega
    · rintro ⟨htn, hcr⟩
      refine ⟨⟨?_, by omega⟩, hcr⟩
      intro hteq
      subst hteq
      unfold nzCarryRow at hcr
      omega
  have hcar : (∑ t ∈ (Finset.range nt).erase t0,
      ∑ k ∈ Finset.Ico (max (nzStartY m nt t) (m.row_offsets r))
        (min (nzStartY m nt (t + 1)) (m.row_offsets (r + 1))),
        spmmG m xrm nv k i) =
      ∑ t ∈ (Finset.range (nt - 1)).filter
        (fun t => nzCarryRow m nt t = r), nzCarryVal m xrm nv nt t i := by
    rw [Finset.sum_congr rfl herase, ← Finset.sum_filter, hfil]
  have hker : ompNonzeroSplitCsrmm nt m xrm nv Y0 (r * nv + i) =
      nzParallelY m xrm nv nt nt Y0 (r * nv + i) +
        ∑ t ∈ (Finset.range (nt - 1)).filter
          (fun t => nzCarryRow m nt t = r), nzCarryVal m xrm nv nt t i :=
    carryFixup_val m.num_rows nv (nzCarryRow m nt) (nzCarryVal m xrm nv nt)
      (nt - 1) (nzParallelY m xrm nv nt nt Y0) r i hi hr
  have hpar := nzParallelY_owner m wf xrm nv nt nt Y0 r i t0 hi hr ht0nt
    ht0s ht0e huniq2
  have hsplit := Finset.add_sum_erase (Finset.range nt)
    (fun t => ∑ k ∈ Finset.Ico (max (nzStartY m nt t) (m.row_offsets r))
      (min (nzStartY m nt (t + 1)) (m.row_offsets (r + 1))),
      spmmG m xrm nv k i) (Finset.mem_range.mpr ht0nt)
  have hrow : ompNonzeroSplitCsrmm nt m xrm nv Y0 (r * nv + i) =
      ∑ k ∈ Finset.Ico (m.row_offsets r) (m.row_offsets (r + 1)),
        spmmG m xrm nv k i := by
    rw [hker, hpar, ← hFt0, ← hcar, ← htel, ← hsplit]
  rw [hrow]
  unfold spmvGold
  rw [spmvGoldAux_val, if_pos hr, zero_mul, zero_add]
  apply Finset.sum_congr rfl
  intro k hk
  rw [Finset.mem_Ico] at hk
  have hknz : k < m.num_nonzeros := by omega
  have hcol := wf.2.2.2 k hknz
  unfold spmmG
  rw [hx (m.column_indices k) hcol]
  ring

/-- Supporting result: the parallel phase of the nonzero-split kernel never
overwrites a row whose end offset already reaches `num_nonzeros` (in
particular the last nonempty row and any trailing empty rows): every thread's
end row is searched with the comparison `row_end_offsets[p] <= y - 1`, so no
thread's whole-rows loop reaches such a row. -/
theorem nzsplit_lastRow_no_overwrite (m : CsrMatrix) (wf : CsrWf m)
    (xrm : ℕ → ℚ) (nv nt : ℕ) (Y0 : ℕ → ℚ) (r i : ℕ) (hi : i < nv)
    (hro : m.num_nonzeros ≤ m.row_offsets (r + 1)) :
    nzParallelY m xrm nv nt nt Y0 (r * nv + i) = Y0 (r * nv + i) := by
  apply nzParallelY_notMem m xrm nv nt nt Y0 r i hi
  intro t ht hcon
  obtain ⟨e1, e2, e3⟩ := rowSearch_spec m wf (nzEndY m nt t)
  have h2 := e2 r hcon.2
  have hre : rowEnds m r = m.row_offsets (r + 1) := rfl
  have h3 := nzEndY_le_nnz m nt t
  omega
